import Mathlib

/-! # cboot: PL011 console driver and interactive monitor loop

A shallow embedding of `src/uart.c` and of the interactive loop of
`boot_main` in `src/boot.c`.

Modelling conventions.

* `char` is the AArch64 `char`: an unsigned byte, held in a `Nat`.
* `uint64_t` / `uint32_t` values are `Nat`s; the theorems bound them by
  `2 ^ 64` / `2 ^ 32`.  `int` loop counters that run below zero are `Int`s.
* The PL011 registers are volatile.  The value each read of the flag register
  `UART0_FR` and of the data register `UART0_DR` returns is chosen by the
  environment: `Uart.fr k` is what the `k`-th read of `UART0_FR` returns and
  `Uart.dr k` what the `k`-th read of `UART0_DR` returns.  Writes to
  `UART0_DR` are logged in `Uart.tx`, writes to the other registers in
  `Uart.ctl`.
* Busy-wait loops and the other loops are bounded by a `fuel` argument; a run
  that needs more iterations than `fuel` stops with `Fault.fuel`.
-/

namespace Cboot

/-- Reasons for which a run of the model stops without a result. -/
inductive Fault where
  /-- The iteration budget is used up. -/
  | fuel
  /-- An array is indexed outside its declared extent. -/
  | bounds
  /-- A shift count is not smaller than the width of the shifted type. -/
  | shift
  /-- A string is read past the modelled memory (no terminator found). -/
  | memory
  deriving DecidableEq, Repr

/-- Result of running a piece of the program. -/
abbrev Exec (α : Type) := Except Fault α

/-! ## `uart.h` -/

/-- Offset of `UART0_DR` from `UART0_BASE`. -/
def UART0_DR : Nat := 0x00
/-- Offset of `UART0_FR` from `UART0_BASE`. -/
def UART0_FR : Nat := 0x18
/-- Offset of `UART0_IBRD` from `UART0_BASE`. -/
def UART0_IBRD : Nat := 0x24
/-- Offset of `UART0_FBRD` from `UART0_BASE`. -/
def UART0_FBRD : Nat := 0x28
/-- Offset of `UART0_LCRH` from `UART0_BASE`. -/
def UART0_LCRH : Nat := 0x2C
/-- Offset of `UART0_CR` from `UART0_BASE`. -/
def UART0_CR : Nat := 0x30
/-- Offset of `UART0_IMSC` from `UART0_BASE`. -/
def UART0_IMSC : Nat := 0x38

/-- Flag register bit: transmit FIFO full, `(1 << 5)`. -/
def UART_FR_TXFF : Nat := 1 <<< 5
/-- Flag register bit: receive FIFO empty, `(1 << 4)`. -/
def UART_FR_RXFE : Nat := 1 <<< 4
/-- Line control bit: enable FIFOs, `(1 << 4)`. -/
def UART_LCRH_FEN : Nat := 1 <<< 4
/-- Line control bits: 8 data bits, `(3 << 5)`. -/
def UART_LCRH_WLEN_8BIT : Nat := 3 <<< 5
/-- Control bit: UART enable, `(1 << 0)`. -/
def UART_CR_UARTEN : Nat := 1 <<< 0
/-- Control bit: transmit enable, `(1 << 8)`. -/
def UART_CR_TXE : Nat := 1 <<< 8
/-- Control bit: receive enable, `(1 << 9)`. -/
def UART_CR_RXE : Nat := 1 <<< 9

/-- The macro `UART_CLOCK`. -/
def UART_CLOCK : Nat := 48000000
/-- The macro `BAUD_RATE`. -/
def BAUD_RATE : Nat := 115200
/-- The macro `BAUD_DIVISOR`, `(UART_CLOCK / (16 * BAUD_RATE))` in integer arithmetic. -/
def BAUD_DIVISOR : Nat := UART_CLOCK / (16 * BAUD_RATE)

/-- Specification side of the baud computation: the remainder of the division
of `clock` by `16 * baud`, scaled by 64 and rounded to the nearest integer
(`rem * 64 / d + 1/2`, computed as `(2 * rem * 64 + d) / (2 * d)`). -/
def spec_fractional_divisor (clock baud : Nat) : Nat :=
  (2 * ((clock % (16 * baud)) * 64) + 16 * baud) / (2 * (16 * baud))

/-! ## The device as seen by the program -/

/-- The PL011 as the program observes it. -/
structure Uart where
  /-- Value returned by the `k`-th read of `UART0_FR` (environment). -/
  fr : Nat → Nat
  /-- Value returned by the `k`-th read of `UART0_DR` (environment). -/
  dr : Nat → Nat
  /-- Number of reads of `UART0_FR` performed so far. -/
  frReads : Nat
  /-- Number of reads of `UART0_DR` performed so far. -/
  drReads : Nat
  /-- Values written to `UART0_DR` so far, oldest first. -/
  tx : List Nat
  /-- Writes to the other registers so far, as (offset, value), oldest first. -/
  ctl : List (Nat × Nat)

/-- The device after `k` more reads of the flag register and after `bytes`
have been written, in order, to the data register. -/
def Uart.sent (u : Uart) (k : Nat) (bytes : List Nat) : Uart :=
  { u with frReads := u.frReads + k, tx := u.tx ++ bytes }

/-- The device after `k` more reads of the flag register. -/
def Uart.polled (u : Uart) (k : Nat) : Uart :=
  { u with frReads := u.frReads + k }

/-- The transmit FIFO always eventually has space: after any number of reads
of the flag register a later read shows `TXFF` clear. -/
def TxEventuallyFree (u : Uart) : Prop :=
  ∀ k, ∃ j, k ≤ j ∧ u.fr j &&& UART_FR_TXFF = 0

/-- A device whose flag register always reads `0` (transmit FIFO not full,
receive FIFO not empty), whose data register delivers the bytes of `input` in
order and `0` afterwards, and on which nothing has happened yet. -/
def Uart.ready (input : List Nat) : Uart :=
  { fr := fun _ => 0, dr := fun k => input.getD k 0, frReads := 0, drReads := 0,
    tx := [], ctl := [] }

/-- A device whose receive FIFO always reports empty and whose transmit FIFO
is never full. -/
def Uart.silent : Uart :=
  { fr := fun _ => UART_FR_RXFE, dr := fun _ => 0, frReads := 0, drReads := 0,
    tx := [], ctl := [] }

/-- A device that showed the receive FIFO empty at its first four reads of the
flag register, all of them performed already, and shows it not empty from then
on; its transmit FIFO is never full and its data register delivers the bytes
of `input` in order and `0` afterwards. -/
def Uart.resumed (input : List Nat) : Uart :=
  { fr := fun k => if k < 4 then UART_FR_RXFE else 0, dr := fun k => input.getD k 0,
    frReads := 4, drReads := 0, tx := [], ctl := [] }

/-- The bytes of a C string literal, terminator included. -/
def cstr (s : String) : List Nat := s.toList.map Char.toNat ++ [0]

/-- The bytes of a C string literal without the terminator. -/
def ctext (s : String) : List Nat := s.toList.map Char.toNat

/-! ## `uart.c` -/

/-- The function `uart_init`.  The settling loop
`for (volatile int i = 0; i < 150; i++);` touches no device register. -/
def uart_init (u : Uart) : Uart :=
  let u := { u with ctl := u.ctl ++ [(UART0_CR, 0)] }
  let u := { u with ctl := u.ctl ++ [(UART0_IBRD, 26)] }
  let u := { u with ctl := u.ctl ++ [(UART0_FBRD, 3)] }
  let u := { u with ctl := u.ctl ++ [(UART0_LCRH, UART_LCRH_WLEN_8BIT ||| UART_LCRH_FEN)] }
  let u := { u with ctl := u.ctl ++ [(UART0_IMSC, 0)] }
  { u with ctl := u.ctl ++ [(UART0_CR, UART_CR_UARTEN ||| UART_CR_TXE ||| UART_CR_RXE)] }

/-- The values written to the register at `offset`, oldest first. -/
def Uart.writesTo (u : Uart) (offset : Nat) : List Nat :=
  (u.ctl.filter (fun w => w.1 == offset)).map Prod.snd

/-- The function `uart_putc`: poll `UART0_FR` until `TXFF` is clear, write `c`
to `UART0_DR`, and call itself with `'\r'` when `c` is `'\n'`.  Each poll and
the recursive call take one unit of fuel. -/
def uart_putc : Nat → Nat → Uart → Exec Uart
  | 0, _, _ => .error .fuel
  | fuel + 1, c, u =>
    if u.fr u.frReads &&& UART_FR_TXFF ≠ 0 then
      uart_putc fuel c { u with frReads := u.frReads + 1 }
    else
      let u := { u with frReads := u.frReads + 1, tx := u.tx ++ [c] }
      if c = 10 then uart_putc fuel 13 u else .ok u

/-- The function `uart_puts`; `str` is the memory from the pointer on. -/
def uart_puts (fuel : Nat) : List Nat → Uart → Exec Uart
  | [], _ => .error .memory
  | c :: str, u =>
    if c ≠ 0 then
      match uart_putc fuel c u with
      | .ok u => uart_puts fuel str u
      | .error e => .error e
    else .ok u

/-- The function `uart_getc`: poll `UART0_FR` until `RXFE` is clear, then read
`UART0_DR` and keep its low eight bits.  Returns the byte and the device. -/
def uart_getc : Nat → Uart → Exec (Nat × Uart)
  | 0, _ => .error .fuel
  | fuel + 1, u =>
    if u.fr u.frReads &&& UART_FR_RXFE ≠ 0 then
      uart_getc fuel { u with frReads := u.frReads + 1 }
    else
      .ok (u.dr u.drReads &&& 0xFF,
        { u with frReads := u.frReads + 1, drReads := u.drReads + 1 })

/-- The function `uart_getc_available`: one read of `UART0_FR`; the result is
`!(UART0_FR & UART_FR_RXFE)`. -/
def uart_getc_available (u : Uart) : Nat × Uart :=
  (if u.fr u.frReads &&& UART_FR_RXFE ≠ 0 then 0 else 1,
    { u with frReads := u.frReads + 1 })

/-- The table `hex[]` of `uart_puthex`, the string `"0123456789ABCDEF"`. -/
def hex : List Nat := cstr "0123456789ABCDEF"

/-- The loop of `uart_puthex`, entered with counter `i`:
`for (...; i >= 0; i -= 4) uart_putc(hex[(value >> i) & 0xF]);`. -/
def uart_puthex_loop : Nat → Nat → Int → Uart → Exec Uart
  | 0, _, _, _ => .error .fuel
  | fuel + 1, value, i, u =>
    if 0 ≤ i then
      if i < 64 then
        match hex.get? ((value >>> i.toNat) &&& 0xF) with
        | some c =>
          match uart_putc fuel c u with
          | .ok u => uart_puthex_loop fuel value (i - 4) u
          | .error e => .error e
        | none => .error .bounds
      else .error .shift
    else .ok u

/-- The function `uart_puthex`. -/
def uart_puthex (fuel : Nat) (value : Nat) (digits : Int) (u : Uart) : Exec Uart :=
  uart_puthex_loop fuel value ((digits - 1) * 4) u

/-- The first loop of `uart_putdec`:
`while (value > 0) { buffer[i++] = '0' + (value % 10); value /= 10; }`.
Returns the buffer and `i`. -/
def uart_putdec_fill : Nat → Nat → List Nat → Nat → Exec (List Nat × Nat)
  | 0, _, _, _ => .error .fuel
  | fuel + 1, value, buffer, i =>
    if value > 0 then
      if i < buffer.length then
        uart_putdec_fill fuel (value / 10) (buffer.set i (48 + value % 10)) (i + 1)
      else .error .bounds
    else .ok (buffer, i)

/-- The second loop of `uart_putdec`:
`while (--i >= 0) { uart_putc(buffer[i]); }`. -/
def uart_putdec_emit : Nat → List Nat → Int → Uart → Exec Uart
  | 0, _, _, _ => .error .fuel
  | fuel + 1, buffer, i, u =>
    if 0 ≤ i - 1 then
      match buffer.get? (i - 1).toNat with
      | some c =>
        match uart_putc fuel c u with
        | .ok u => uart_putdec_emit fuel buffer (i - 1) u
        | .error e => .error e
      | none => .error .bounds
    else .ok u

/-- The function `uart_putdec`.  `buffer` is the content the uninitialised
local `char buffer[20]` happens to have on entry. -/
def uart_putdec (fuel : Nat) (value : Nat) (buffer : List Nat) (u : Uart) : Exec Uart :=
  if value = 0 then
    uart_putc fuel 48 u
  else
    match uart_putdec_fill fuel value buffer 0 with
    | .ok (buffer, i) => uart_putdec_emit fuel buffer i u
    | .error e => .error e

/-- The loop of `uart_putbin`, entered with counter `i`:
`for (...; i >= 0; i--) { uart_putc((value >> i) & 1 ? '1' : '0');
if (i % 4 == 0 && i != 0) uart_putc(' '); }`. -/
def uart_putbin_loop : Nat → Nat → Int → Uart → Exec Uart
  | 0, _, _, _ => .error .fuel
  | fuel + 1, value, i, u =>
    if 0 ≤ i then
      if i < 32 then
        match uart_putc fuel (if (value >>> i.toNat) &&& 1 ≠ 0 then 49 else 48) u with
        | .ok u =>
          if i % 4 = 0 ∧ i ≠ 0 then
            match uart_putc fuel 32 u with
            | .ok u => uart_putbin_loop fuel value (i - 1) u
            | .error e => .error e
          else uart_putbin_loop fuel value (i - 1) u
        | .error e => .error e
      else .error .shift
    else .ok u

/-- The function `uart_putbin`. -/
def uart_putbin (fuel : Nat) (value : Nat) (bits : Int) (u : Uart) : Exec Uart :=
  uart_putbin_loop fuel value (bits - 1) u

/-! ## `boot.c` -/

/-- The loop of `dump_registers`, entered with counter `i`; `regs i` is the
value the `str` block stored for register `xi`. -/
def dump_registers_loop : Nat → (Nat → Nat) → Nat → Uart → Exec Uart
  | 0, _, _, _ => .error .fuel
  | fuel + 1, regs, i, u =>
    if i < 31 then do
      let u ← uart_puts fuel (cstr "x") u
      let u ← if i < 10 then uart_putc fuel (48 + i) u else uart_putc fuel (65 + (i - 10)) u
      let u ← uart_puts fuel (cstr ": 0x") u
      let u ← uart_puthex fuel (regs i) 8 u
      let u ← uart_puts fuel (cstr "\n") u
      dump_registers_loop fuel regs (i + 1) u
    else pure u

/-- The function `dump_registers`; the register values captured by the `str`
block are supplied by the environment as `regs`. -/
def dump_registers (fuel : Nat) (regs : Nat → Nat) (u : Uart) : Exec Uart := do
  let u ← uart_puts fuel (cstr "\n[DEBUG] Register Dump:\n") u
  let u ← uart_puts fuel (cstr "====================\n") u
  dump_registers_loop fuel regs 0 u

/-- How one pass through the body of `while (1)` in `boot_main` ends. -/
inductive Ctl where
  /-- The pass ends and the loop goes round again (`continue`, or no input). -/
  | next
  /-- The loop is left through `break`. -/
  | leave
  /-- Control is transferred to the entry address `0x8000` (`br x0`). -/
  | restart
  deriving DecidableEq, Repr

/-- The `switch (c)` of `boot_main` for a received byte `c`, with the local
`echo_on`.  Returns how the pass ends, the new `echo_on` and the device.
`delay` touches no device register. -/
def boot_main_switch (fuel : Nat) (regs : Nat → Nat) (c : Nat) (echo_on : Nat) (u : Uart) :
    Exec (Ctl × Nat × Uart) :=
  if c = 0x1B then do
    let u ← uart_puts fuel (cstr "\r\n[SYSTEM] Exiting echo test\r\n") u
    pure (Ctl.leave, echo_on, u)
  else if c = 63 then do -- '?'
    let u ← uart_puts fuel (cstr "\r\n[HELP] Commands:\r\n") u
    let u ← uart_puts fuel (cstr "  ESC - Exit echo test\r\n") u
    let u ← uart_puts fuel (cstr "  ?   - This help\r\n") u
    let u ← uart_puts fuel (cstr "  d   - Dump registers\r\n") u
    let u ← uart_puts fuel (cstr "  r   - Reboot system\r\n") u
    let u ← uart_puts fuel (cstr "  e   - Toggle echo (") u
    let u ← uart_puts fuel (if echo_on ≠ 0 then cstr "ON" else cstr "OFF") u
    let u ← uart_puts fuel (cstr ")\r\n") u
    let u ← uart_puts fuel (cstr "> ") u
    pure (Ctl.next, echo_on, u)
  else if c = 100 then do -- 'd'
    let u ← dump_registers fuel regs u
    let u ← uart_puts fuel (cstr "> ") u
    pure (Ctl.next, echo_on, u)
  else if c = 101 then do -- 'e'
    let echo_on := if echo_on ≠ 0 then 0 else 1
    let u ← uart_puts fuel (cstr "\r\n[ECHO] Echo ") u
    let u ← uart_puts fuel (if echo_on ≠ 0 then cstr "ON" else cstr "OFF") u
    let u ← uart_puts fuel (cstr "\r\n> ") u
    pure (Ctl.next, echo_on, u)
  else if c = 114 then do -- 'r'
    let u ← uart_puts fuel (cstr "\r\n[SYSTEM] Rebooting system...\r\n") u
    pure (Ctl.restart, echo_on, u)
  else
    if echo_on ≠ 0 then do
      let u ← uart_putc fuel c u
      pure (Ctl.next, echo_on, u)
    else pure (Ctl.next, echo_on, u)

/-- One pass through the body of `while (1)` in `boot_main`. -/
def boot_main_pass (fuel : Nat) (regs : Nat → Nat) (echo_on : Nat) (u : Uart) :
    Exec (Ctl × Nat × Uart) :=
  let (avail, u) := uart_getc_available u
  if avail ≠ 0 then do
    let (c, u) ← uart_getc fuel u
    boot_main_switch fuel regs c echo_on u
  else pure (Ctl.next, echo_on, u)

/-- Where control is. -/
inductive Phase where
  /-- In the `while (1)` loop of `boot_main`. -/
  | interactive
  /-- In the `while (1) { wfi }` loop of `system_halt`. -/
  | halted
  /-- At the entry address `0x8000`, after the `br x0` of the reboot command. -/
  | restarted
  deriving DecidableEq, Repr

/-- State of the boot sequencer from the interactive loop on. -/
structure Boot where
  /-- Where control is. -/
  phase : Phase
  /-- The local `echo_on` of `boot_main`. -/
  echo_on : Nat
  /-- The interrupt mask bits `DAIF` of the core. -/
  daif : Nat
  /-- The serial device. -/
  uart : Uart

/-- The function `system_halt` up to its final loop: `msr daifset, #0xf`, the
halt message, and control enters `while (1) { wfi }`. -/
def system_halt (fuel : Nat) (s : Boot) : Exec Boot := do
  let daif := s.daif ||| 0xF
  let u ← uart_puts fuel (cstr "\n[SYSTEM] Halting CPU...\n") s.uart
  pure { phase := Phase.halted, echo_on := s.echo_on, daif := daif, uart := u }

/-- The state in which `boot_main` enters its interactive loop:
`int echo_on = 1;`. -/
def boot_loop_entry (daif : Nat) (u : Uart) : Boot :=
  { phase := Phase.interactive, echo_on := 1, daif := daif, uart := u }

/-- One step of the sequencer.  In the interactive phase: one pass through the
loop body, followed, when the loop is left, by the rest of `boot_main` up to
the final loop of `system_halt`.  In the halted phase: one pass through
`while (1) { wfi }`, which touches nothing.  After a restart control is
outside `boot_main`. -/
def boot_step (fuel : Nat) (regs : Nat → Nat) (s : Boot) : Exec Boot :=
  match s.phase with
  | Phase.interactive => do
    let (ctl, echo_on, u) ← boot_main_pass fuel regs s.echo_on s.uart
    match ctl with
    | Ctl.next => pure { s with echo_on := echo_on, uart := u }
    | Ctl.leave => do
      let u ← uart_puts fuel (cstr "\r\n[SYSTEM] Bootloader completed successfully\r\n") u
      let u ← uart_puts fuel (cstr "[SYSTEM] Entering system halt...\r\n") u
      system_halt fuel { s with echo_on := echo_on, uart := u }
    | Ctl.restart => pure { s with phase := Phase.restarted, echo_on := echo_on, uart := u }
  | Phase.halted => pure s
  | Phase.restarted => pure s

/-- The sequencer run for `n` steps. -/
def boot_run (fuel : Nat) (regs : Nat → Nat) : Nat → Boot → Exec Boot
  | 0, s => pure s
  | n + 1, s => do
    let s ← boot_step fuel regs s
    boot_run fuel regs n s

/-! ## Vocabulary of the statements -/

/-- What `uart_putc c` puts on the wire: `c`, followed by a carriage return
when `c` is a line feed. -/
def wireByte (c : Nat) : List Nat := if c = 10 then [10, 13] else [c]

/-- What sending the bytes `s` one by one through `uart_putc` puts on the wire. -/
def wire (s : List Nat) : List Nat := s.flatMap wireByte

/-- The program `p` terminates on every device whose transmitter always
eventually has space, and its effect on the device is to write `bytes`, in
order, to the data register (and to read the flag register some number of
times). -/
def Emits (p : Nat → Uart → Exec Uart) (bytes : List Nat) : Prop :=
  ∀ u, TxEventuallyFree u → ∃ k F, ∀ f, F ≤ f → p f u = .ok (u.sent k bytes)

/-- Like `Emits`, for a program that returns `r` of the final device. -/
def EmitsR {α : Type} (p : Nat → Uart → Exec α) (bytes : List Nat) (r : Uart → α) : Prop :=
  ∀ u, TxEventuallyFree u → ∃ k F, ∀ f, F ≤ f → p f u = .ok (r (u.sent k bytes))

/-- The device after `n` bytes have been received by the interactive loop:
each reception reads the flag register twice (once in `uart_getc_available`,
once in `uart_getc`) and the data register once. -/
def Uart.received (u : Uart) (n : Nat) : Uart :=
  { u with frReads := u.frReads + 2 * n, drReads := u.drReads + n }

/-- The device after `polls` more reads of the flag register, `reads` more
reads of the data register, and after `bytes` have been written, in order, to
the data register. -/
def Uart.after (u : Uart) (polls reads : Nat) (bytes : List Nat) : Uart :=
  { u with frReads := u.frReads + polls, drReads := u.drReads + reads, tx := u.tx ++ bytes }

/-- The next key the operator sends is `c`, and it arrives after `m` idle polls:
from the device state `u` on, the next `m` reads of the flag register show the
receive FIFO empty, the two reads after them (the one of `uart_getc_available`
and the one of `uart_getc`) show it not empty, and the next read of the data
register delivers `c` in its low eight bits.  Nothing is said about any other
read of the flag register. -/
def KeyArrives (u : Uart) (m c : Nat) : Prop :=
  (∀ j, j < m → u.fr (u.frReads + j) &&& UART_FR_RXFE ≠ 0) ∧
  u.fr (u.frReads + m) &&& UART_FR_RXFE = 0 ∧
  u.fr (u.frReads + m + 1) &&& UART_FR_RXFE = 0 ∧
  u.dr u.drReads &&& 0xFF = c

/-- Text printed by the `e` command when it switches the echo off. -/
def echo_off_text : List Nat := ctext "\r\n[ECHO] Echo " ++ ctext "OFF" ++ ctext "\r\n> "

/-- Text printed by the `?` command while the echo is off. -/
def help_text_off : List Nat :=
  ctext "\r\n[HELP] Commands:\r\n" ++ ctext "  ESC - Exit echo test\r\n" ++
  ctext "  ?   - This help\r\n" ++ ctext "  d   - Dump registers\r\n" ++
  ctext "  r   - Reboot system\r\n" ++ ctext "  e   - Toggle echo (" ++ ctext "OFF" ++
  ctext ")\r\n" ++ ctext "> "

/-- Text printed by the ESC command. -/
def exit_text : List Nat := ctext "\r\n[SYSTEM] Exiting echo test\r\n"

/-- Text printed by `boot_main` after the loop and by `system_halt`. -/
def halt_text : List Nat :=
  ctext "\r\n[SYSTEM] Bootloader completed successfully\r\n" ++
  ctext "[SYSTEM] Entering system halt...\r\n" ++ ctext "\n[SYSTEM] Halting CPU...\n"

/-- The character for the hexadecimal digit `n < 16`: `0`-`9`, `A`-`F`. -/
def hexChar (n : Nat) : Nat := if n < 10 then 48 + n else 55 + n

/-- The byte `c` is one of the characters `0`-`9`, `A`-`F`. -/
def isUpperHex (c : Nat) : Prop := (48 ≤ c ∧ c ≤ 57) ∨ (65 ≤ c ∧ c ≤ 70)

/-- Value of a hexadecimal digit character. -/
def hexVal (c : Nat) : Nat := if c ≤ 57 then c - 48 else c - 55

/-- Reads a most-significant-first string of hexadecimal digit characters. -/
def parseHex (s : List Nat) : Nat := s.foldl (fun acc c => 16 * acc + hexVal c) 0

/-- Reads a most-significant-first string of decimal digit characters. -/
def parseDec (s : List Nat) : Nat := s.foldl (fun acc c => 10 * acc + (c - 48)) 0

/-- The character `uart_putbin` sends for bit `i` of `v`. -/
def bitChar (v i : Nat) : Nat := if v / 2 ^ i % 2 = 1 then 49 else 48

/-- What `uart_putbin` sends for bit `i` of `v`: the digit, followed by a
space when `i` is a non-zero multiple of 4. -/
def bitGroup (v i : Nat) : List Nat := bitChar v i :: (if i % 4 = 0 ∧ i ≠ 0 then [32] else [])

/-- The counters `n - 1, n - 2, ..., 0`. -/
def countdown (n : Nat) : List Nat := (List.range n).reverse

/-! ## Basic facts about the device -/

theorem sent_sent (u : Uart) (a b : Nat) (x y : List Nat) :
    (u.sent a x).sent b y = u.sent (a + b) (x ++ y) := by
  simp [Uart.sent, Nat.add_assoc, List.append_assoc]

theorem sent_zero_nil (u : Uart) : u.sent 0 [] = u := by
  cases u; simp [Uart.sent]

theorem txfree_sent {u : Uart} (h : TxEventuallyFree u) (k : Nat) (b : List Nat) :
    TxEventuallyFree (u.sent k b) := h

theorem txfree_ready (input : List Nat) : TxEventuallyFree (Uart.ready input) :=
  fun k => ⟨k, le_refl k, by simp [Uart.ready]⟩

theorem txfree_resumed (input : List Nat) : TxEventuallyFree (Uart.resumed input) := by
  intro k
  refine ⟨k, le_refl k, ?_⟩
  by_cases h : k < 4
  · simp only [Uart.resumed, if_pos h]
    decide
  · simp only [Uart.resumed, if_neg h]
    decide

theorem ok_bind {α β : Type} (a : α) (g : α → Exec β) :
    ((Except.ok a : Exec α) >>= g) = g a := rfl

theorem error_bind {α β : Type} (e : Fault) (g : α → Exec β) :
    ((Except.error e : Exec α) >>= g) = Except.error e := rfl

theorem pure_eq_ok {α : Type} (a : α) : (pure a : Exec α) = Except.ok a := rfl

/-! ## `uart_putc` -/

theorem uart_putc_busy (f c : Nat) (u : Uart) (h : u.fr u.frReads &&& UART_FR_TXFF ≠ 0) :
    uart_putc (f + 1) c u = uart_putc f c (u.sent 1 []) := by
  rw [uart_putc, if_pos h]
  congr 1
  cases u; simp [Uart.sent]

theorem uart_putc_free (f c : Nat) (u : Uart) (h : u.fr u.frReads &&& UART_FR_TXFF = 0)
    (hc : c ≠ 10) : uart_putc (f + 1) c u = .ok (u.sent 1 [c]) := by
  rw [uart_putc, if_neg (by simpa using h)]
  simp [hc, Uart.sent]

theorem uart_putc_free_lf (f : Nat) (u : Uart) (h : u.fr u.frReads &&& UART_FR_TXFF = 0) :
    uart_putc (f + 1) 10 u = uart_putc f 13 (u.sent 1 [10]) := by
  rw [uart_putc, if_neg (by simpa using h)]
  simp [Uart.sent]

theorem uart_putc_wait (c : Nat) (hc : c ≠ 10) :
    ∀ (d : Nat) (u : Uart), u.fr (u.frReads + d) &&& UART_FR_TXFF = 0 →
      ∃ k, ∀ f, d + 1 ≤ f → uart_putc f c u = .ok (u.sent k [c]) := by
  intro d
  induction d with
  | zero =>
    intro u h
    refine ⟨1, fun f hf => ?_⟩
    obtain ⟨f, rfl⟩ : ∃ g, f = g + 1 := ⟨f - 1, by omega⟩
    exact uart_putc_free f c u (by simpa using h) hc
  | succ d ih =>
    intro u h
    by_cases hb : u.fr u.frReads &&& UART_FR_TXFF = 0
    · refine ⟨1, fun f hf => ?_⟩
      obtain ⟨f, rfl⟩ : ∃ g, f = g + 1 := ⟨f - 1, by omega⟩
      exact uart_putc_free f c u hb hc
    · have h1 : (u.sent 1 []).fr ((u.sent 1 []).frReads + d) &&& UART_FR_TXFF = 0 := by
        have : u.frReads + 1 + d = u.frReads + (d + 1) := by omega
        simpa [Uart.sent, this] using h
      obtain ⟨k, hk⟩ := ih (u.sent 1 []) h1
      refine ⟨1 + k, fun f hf => ?_⟩
      obtain ⟨f, rfl⟩ : ∃ g, f = g + 1 := ⟨f - 1, by omega⟩
      rw [uart_putc_busy f c u hb, hk f (by omega), sent_sent]
      simp

theorem emits_putc_plain (c : Nat) (hc : c ≠ 10) : Emits (fun f => uart_putc f c) [c] := by
  intro u hu
  obtain ⟨j, hj, hfree⟩ := hu u.frReads
  obtain ⟨k, hk⟩ := uart_putc_wait c hc (j - u.frReads) u
    (by rwa [Nat.add_sub_cancel' hj])
  exact ⟨k, _, hk⟩

theorem uart_putc_wait_lf :
    ∀ (d : Nat) (u : Uart), TxEventuallyFree u → u.fr (u.frReads + d) &&& UART_FR_TXFF = 0 →
      ∃ k F, ∀ f, F ≤ f → uart_putc f 10 u = .ok (u.sent k [10, 13]) := by
  have key : ∀ u : Uart, TxEventuallyFree u → u.fr u.frReads &&& UART_FR_TXFF = 0 →
      ∃ k F, ∀ f, F ≤ f → uart_putc f 10 u = .ok (u.sent k [10, 13]) := by
    intro u hu hb
    obtain ⟨k, F, hk⟩ := emits_putc_plain 13 (by decide) (u.sent 1 [10]) (txfree_sent hu 1 [10])
    dsimp only at hk
    refine ⟨1 + k, F + 1, fun f hf => ?_⟩
    obtain ⟨f, rfl⟩ : ∃ g, f = g + 1 := ⟨f - 1, by omega⟩
    rw [uart_putc_free_lf f u hb, hk f (by omega), sent_sent]
    simp
  intro d
  induction d with
  | zero =>
    intro u hu h
    exact key u hu (by simpa using h)
  | succ d ih =>
    intro u hu h
    by_cases hb : u.fr u.frReads &&& UART_FR_TXFF = 0
    · exact key u hu hb
    · have h1 : (u.sent 1 []).fr ((u.sent 1 []).frReads + d) &&& UART_FR_TXFF = 0 := by
        have : u.frReads + 1 + d = u.frReads + (d + 1) := by omega
        simpa [Uart.sent, this] using h
      obtain ⟨k, F, hk⟩ := ih (u.sent 1 []) (txfree_sent hu 1 []) h1
      refine ⟨1 + k, F + 1, fun f hf => ?_⟩
      obtain ⟨f, rfl⟩ : ∃ g, f = g + 1 := ⟨f - 1, by omega⟩
      rw [uart_putc_busy f 10 u hb, hk f (by omega), sent_sent]
      simp

theorem emits_putc (c : Nat) : Emits (fun f => uart_putc f c) (wireByte c) := by
  by_cases hc : c = 10
  · subst hc
    intro u hu
    obtain ⟨j, hj, hfree⟩ := hu u.frReads
    have := uart_putc_wait_lf (j - u.frReads) u hu (by rwa [Nat.add_sub_cancel' hj])
    simpa [wireByte] using this
  · have := emits_putc_plain c hc
    simpa [wireByte, hc] using this

/-! ## Sequencing -/

theorem emits_ok : Emits (fun _ u => Except.ok u) [] := by
  intro u _
  exact ⟨0, 0, fun f _ => by rw [sent_zero_nil]⟩

theorem emits_bind {p q : Nat → Uart → Exec Uart} {a b : List Nat}
    (hp : Emits p a) (hq : Emits q b) : Emits (fun f u => p f u >>= q f) (a ++ b) := by
  intro u hu
  obtain ⟨k1, F1, h1⟩ := hp u hu
  obtain ⟨k2, F2, h2⟩ := hq (u.sent k1 a) (txfree_sent hu k1 a)
  refine ⟨k1 + k2, max F1 F2, fun f hf => ?_⟩
  show p f u >>= q f = _
  rw [h1 f (le_trans (le_max_left _ _) hf), ok_bind, h2 f (le_trans (le_max_right _ _) hf),
    sent_sent]

theorem emits_congr {p q : Nat → Uart → Exec Uart} {a b : List Nat}
    (hp : Emits p a) (hpq : ∀ f u, q f u = p f u) (hab : a = b) : Emits q b := by
  subst hab
  intro u hu
  obtain ⟨k, F, h⟩ := hp u hu
  exact ⟨k, F, fun f hf => by rw [hpq, h f hf]⟩

/-- Stepping lemma for loops that spend one unit of fuel per pass. -/
theorem emits_step (q : Nat → Uart → Exec Uart) {p : Nat → Uart → Exec Uart} {a : List Nat}
    (hp : Emits p a) (hq : ∀ f u, q (f + 1) u = p f u) : Emits q a := by
  intro u hu
  obtain ⟨k, F, h⟩ := hp u hu
  refine ⟨k, F + 1, fun f hf => ?_⟩
  obtain ⟨f, rfl⟩ : ∃ g, f = g + 1 := ⟨f - 1, by omega⟩
  rw [hq, h f (by omega)]

/-! ## `uart_puts` -/

theorem uart_puts_cons (f c : Nat) (str : List Nat) (u : Uart) (hc : c ≠ 0) :
    uart_puts f (c :: str) u = uart_putc f c u >>= uart_puts f str := by
  rw [uart_puts, if_pos hc]
  cases uart_putc f c u <;> rfl

theorem emits_puts (s rest : List Nat) (hs : ∀ c ∈ s, c ≠ 0) :
    Emits (fun f => uart_puts f (s ++ 0 :: rest)) (wire s) := by
  induction s with
  | nil =>
    refine emits_congr emits_ok (fun f u => ?_) (by simp [wire])
    simp [uart_puts]
  | cons c s ih =>
    have hc : c ≠ 0 := hs c (List.mem_cons_self c s)
    have ih1 := ih (fun x hx => hs x (List.mem_cons_of_mem c hx))
    refine emits_congr (emits_bind (emits_putc c) ih1) (fun f u => ?_) (by simp [wire])
    simp only [List.cons_append]
    rw [uart_puts_cons f c _ u hc]

theorem emitsR_pure {α : Type} (r : Uart → α) : EmitsR (fun _ u => pure (r u)) [] r := by
  intro u _
  exact ⟨0, 0, fun f _ => by rw [sent_zero_nil]; rfl⟩

theorem emits_bindR {α : Type} {p : Nat → Uart → Exec Uart} {q : Nat → Uart → Exec α}
    {a b : List Nat} {r : Uart → α}
    (hp : Emits p a) (hq : EmitsR q b r) : EmitsR (fun f u => p f u >>= q f) (a ++ b) r := by
  intro u hu
  obtain ⟨k1, F1, h1⟩ := hp u hu
  obtain ⟨k2, F2, h2⟩ := hq (u.sent k1 a) (txfree_sent hu k1 a)
  refine ⟨k1 + k2, max F1 F2, fun f hf => ?_⟩
  show p f u >>= q f = _
  rw [h1 f (le_trans (le_max_left _ _) hf), ok_bind, h2 f (le_trans (le_max_right _ _) hf),
    sent_sent]

theorem cstr_eq (s : String) : cstr s = ctext s ++ 0 :: [] := rfl

theorem emits_lit (s : String) (hs : ∀ c ∈ ctext s, c ≠ 0) :
    Emits (fun f => uart_puts f (cstr s)) (wire (ctext s)) := by
  rw [cstr_eq]
  exact emits_puts (ctext s) [] hs

theorem wire_append (a b : List Nat) : wire (a ++ b) = wire a ++ wire b := by
  simp [wire]

theorem wire_length (s : List Nat) : (wire s).length = s.length + s.count 10 := by
  induction s with
  | nil => simp [wire]
  | cons c s ih =>
    have : wire (c :: s) = wireByte c ++ wire s := by simp [wire]
    rw [this, List.length_append, ih]
    by_cases hc : c = 10
    · subst hc; simp [wireByte]; omega
    · have : (10 == c) = false := by simpa using fun h => hc h.symm
      simp [wireByte, hc, List.count_cons, this]; omega

/-! ## Line feed expansion (C4) and `uart_puts` (C5) -/

/-- C4: when the transmit FIFO is not full (the two reads of the flag register
that `uart_putc` performs show `TXFF` clear), `uart_putc('\n')` returns and
its writes to the data register are exactly two: the line feed `0x0A` first,
the carriage return `0x0D` second; nothing else about the device changes
(the carriage return is not expanded again). -/
theorem uart_putc_newline (fuel : Nat) (u : Uart) (hfuel : 2 ≤ fuel)
    (h0 : u.fr u.frReads &&& UART_FR_TXFF = 0)
    (h1 : u.fr (u.frReads + 1) &&& UART_FR_TXFF = 0) :
    uart_putc fuel 10 u =
      .ok { u with frReads := u.frReads + 2, tx := u.tx ++ [0x0A, 0x0D] } := by
  obtain ⟨f, rfl⟩ : ∃ g, fuel = g + 2 := ⟨fuel - 2, by omega⟩
  rw [uart_putc_free_lf (f + 1) u h0, uart_putc_free f 13 _ (by simpa [Uart.sent] using h1)
    (by decide), sent_sent]
  rfl

/-- Witness of `uart_putc_newline`: a device whose flag register reads `0`. -/
theorem uart_putc_newline_witness :
    (2 ≤ 2 ∧ (Uart.ready []).fr (Uart.ready []).frReads &&& UART_FR_TXFF = 0 ∧
      (Uart.ready []).fr ((Uart.ready []).frReads + 1) &&& UART_FR_TXFF = 0) ∧
    uart_putc 2 10 (Uart.ready []) =
      .ok { Uart.ready [] with frReads := (Uart.ready []).frReads + 2,
                               tx := (Uart.ready []).tx ++ [0x0A, 0x0D] } :=
  ⟨⟨le_refl 2, by decide, by decide⟩,
    uart_putc_newline 2 (Uart.ready []) (le_refl 2) (by decide) (by decide)⟩

/-- C5: for a string `s` of non-zero bytes followed by the terminator (and then
by any memory `rest`), on a device whose transmitter always eventually has
space, `uart_puts` returns (for every large enough fuel) and what it has then
written to the data register is `wire s`: for each byte of `s`, in order, what
`uart_putc` writes for it, that is the byte followed by a carriage return
exactly when it is a line feed.  The number of bytes written is the length of
`s` plus the number of line feeds in `s`, and the empty string writes nothing
and polls nothing. -/
theorem uart_puts_wire (s rest : List Nat) (hs : ∀ c ∈ s, c ≠ 0) (u : Uart)
    (hu : TxEventuallyFree u) :
    (∃ k F, ∀ f, F ≤ f → uart_puts f (s ++ 0 :: rest) u = .ok (u.sent k (wire s))) ∧
    wire s = s.flatMap (fun c => if c = 10 then [c, 13] else [c]) ∧
    (∀ c, ∃ k F, ∀ f, F ≤ f →
      uart_putc f c u = .ok (u.sent k (if c = 10 then [c, 13] else [c]))) ∧
    (wire s).length = s.length + s.count 10 ∧
    (∀ f, uart_puts f (0 :: rest) u = .ok u) := by
  refine ⟨emits_puts s rest hs u hu, ?_, ?_, wire_length s, ?_⟩
  · unfold wire
    congr 1
    funext c
    by_cases hc : c = 10 <;> simp [wireByte, hc]
  · intro c
    have := emits_putc c u hu
    by_cases hc : c = 10
    · subst hc; simpa [wireByte] using this
    · simpa [wireByte, hc] using this
  · intro f
    simp [uart_puts]

/-- Witness of `uart_puts_wire`: the string `"a\nb"` on a ready device. -/
theorem uart_puts_wire_witness :
    (∃ k F, ∀ f, F ≤ f → uart_puts f ([97, 10, 98] ++ 0 :: []) (Uart.ready []) =
      .ok ((Uart.ready []).sent k (wire [97, 10, 98]))) ∧
    wire [97, 10, 98] = [97, 10, 13, 98] :=
  ⟨(uart_puts_wire [97, 10, 98] [] (by decide) (Uart.ready []) (txfree_ready [])).1,
    by decide⟩

/-! ## `uart_puthex` -/

theorem countdown_succ (n : Nat) : countdown (n + 1) = n :: countdown n := by
  simp [countdown, List.range_succ]

theorem countdown_zero : countdown 0 = [] := rfl

theorem length_countdown (n : Nat) : (countdown n).length = n := by
  simp [countdown]

theorem hex_get (n : Nat) (h : n < 16) : hex.get? n = some (hexChar n) := by
  interval_cases n <;> rfl

theorem nibble_eq (v j : Nat) : (v >>> (4 * j)) &&& 0xF = v / 16 ^ j % 16 := by
  have h15 : (0xF : Nat) = 2 ^ 4 - 1 := by norm_num
  rw [h15, Nat.and_pow_two_sub_one_eq_mod, Nat.shiftRight_eq_div_pow, pow_mul]
  norm_num

theorem hexChar_upper (n : Nat) (h : n < 16) : isUpperHex (hexChar n) := by
  unfold isUpperHex hexChar
  split <;> omega

theorem hexVal_hexChar (n : Nat) (h : n < 16) : hexVal (hexChar n) = n := by
  unfold hexVal hexChar
  split <;> split <;> omega

theorem hexChar_ne_lf (n : Nat) : hexChar n ≠ 10 := by
  unfold hexChar
  split <;> omega

theorem uart_puthex_loop_step (f v m : Nat) (u : Uart) (hm : m < 16) :
    uart_puthex_loop (f + 1) v (4 * (m : Int)) u =
      uart_putc f (hexChar (v / 16 ^ m % 16)) u >>=
        fun u => uart_puthex_loop f v (4 * (m : Int) - 4) u := by
  have h0 : (0 : Int) ≤ 4 * (m : Int) := by omega
  have h64 : 4 * (m : Int) < 64 := by omega
  have ht : (4 * (m : Int)).toNat = 4 * m := by omega
  rw [uart_puthex_loop, if_pos h0, if_pos h64, ht, nibble_eq,
    hex_get _ (Nat.mod_lt _ (by norm_num))]
  dsimp only
  cases uart_putc f (hexChar (v / 16 ^ m % 16)) u <;> rfl

theorem uart_puthex_loop_done (f v : Nat) (u : Uart) :
    uart_puthex_loop (f + 1) v (-4) u = .ok u := by
  rw [uart_puthex_loop, if_neg (by decide)]

theorem emits_puthex_loop (v : Nat) :
    ∀ m : Nat, m < 16 → Emits (fun f => uart_puthex_loop f v (4 * (m : Int)))
      ((countdown (m + 1)).map (fun j => hexChar (v / 16 ^ j % 16))) := by
  intro m
  induction m with
  | zero =>
    intro _
    have hdone : Emits (fun f => uart_puthex_loop f v (-4)) [] :=
      emits_step _ emits_ok (fun f u => uart_puthex_loop_done f v u)
    have hput := emits_putc_plain (hexChar (v / 16 ^ 0 % 16)) (hexChar_ne_lf _)
    refine emits_step _ (emits_bind hput hdone) (fun f u => ?_)
    have := uart_puthex_loop_step f v 0 u (by norm_num)
    simpa using this
  | succ m ih =>
    intro hm
    have hput := emits_putc_plain (hexChar (v / 16 ^ (m + 1) % 16)) (hexChar_ne_lf _)
    have hrest := ih (by omega)
    have := emits_step (fun f => uart_puthex_loop f v (4 * ((m + 1 : Nat) : Int)))
      (emits_bind hput hrest)
      (fun f u => by
        show uart_puthex_loop (f + 1) v (4 * ((m + 1 : Nat) : Int)) u = _
        rw [uart_puthex_loop_step f v (m + 1) u hm]
        have e : 4 * ((m + 1 : Nat) : Int) - 4 = 4 * (m : Int) := by push_cast; ring
        rw [e])
    rw [countdown_succ (m + 1), List.map_cons]
    exact this

theorem emits_puthex (v d : Nat) (hd1 : 1 ≤ d) (hd16 : d ≤ 16) :
    Emits (fun f => uart_puthex f v (d : Int))
      ((countdown d).map (fun j => hexChar (v / 16 ^ j % 16))) := by
  obtain ⟨m, rfl⟩ : ∃ m, d = m + 1 := ⟨d - 1, by omega⟩
  refine emits_congr (emits_puthex_loop v m (by omega)) (fun f u => ?_) rfl
  unfold uart_puthex
  congr 1
  push_cast; ring

theorem countdown_get (d j : Nat) (h : j < d) : (countdown d).get? j = some (d - 1 - j) := by
  unfold countdown
  rw [List.get?_eq_getElem?, List.getElem?_reverse (by simpa using h)]
  rw [List.length_range, List.getElem?_range (by omega)]

theorem digit_of_mod (v d i : Nat) (h : i < d) : v % 16 ^ d / 16 ^ i % 16 = v / 16 ^ i % 16 := by
  obtain ⟨e, rfl⟩ : ∃ e, d = i + (e + 1) := ⟨d - i - 1, by omega⟩
  rw [pow_add, Nat.mod_mul_right_div_self, pow_succ]
  exact Nat.mod_mod_of_dvd _ (Dvd.intro_left _ rfl)

theorem parseHex_digits (v : Nat) : ∀ (d a : Nat),
    ((countdown d).map (fun j => hexChar (v / 16 ^ j % 16))).foldl
      (fun acc c => 16 * acc + hexVal c) a = a * 16 ^ d + v % 16 ^ d := by
  intro d
  induction d with
  | zero => intro a; simp [countdown_zero, Nat.mod_one]
  | succ d ih =>
    intro a
    rw [countdown_succ, List.map_cons, List.foldl_cons, ih,
      hexVal_hexChar _ (Nat.mod_lt _ (by norm_num)), Nat.mod_pow_succ]
    ring

/-- C1: for every 64-bit value `v` and digit count `d` with `1 <= d <= 16`, on
a device whose transmitter always eventually has space, `uart_puthex(v, d)`
returns and what it has sent is a string `out` of exactly `d` characters, each
one of `0`-`9`, `A`-`F`; the character at position `j` from the left is the
hexadecimal digit of weight `16 ^ (d - 1 - j)` of `v mod 16 ^ d`, so that `out`
read most-significant digit first is `v mod 16 ^ d` (bits from `4 d` upwards
are dropped, absent high digits come out as `0`). -/
theorem uart_puthex_spec (v d : Nat) (hv : v < 2 ^ 64) (hd1 : 1 ≤ d) (hd16 : d ≤ 16)
    (u : Uart) (hu : TxEventuallyFree u) :
    ∃ out : List Nat,
      (∃ k F, ∀ f, F ≤ f → uart_puthex f v (d : Int) u = .ok (u.sent k out)) ∧
      out.length = d ∧
      (∀ c ∈ out, isUpperHex c) ∧
      (∀ j, j < d → out.get? j = some (hexChar (v % 16 ^ d / 16 ^ (d - 1 - j) % 16))) ∧
      parseHex out = v % 16 ^ d := by
  have _ := hv
  refine ⟨(countdown d).map (fun j => hexChar (v / 16 ^ j % 16)),
    emits_puthex v d hd1 hd16 u hu, ?_, ?_, ?_, ?_⟩
  · rw [List.length_map, length_countdown]
  · intro c hc
    obtain ⟨j, _, rfl⟩ := List.mem_map.1 hc
    exact hexChar_upper _ (Nat.mod_lt _ (by norm_num))
  · intro j hj
    rw [List.get?_eq_getElem?, List.getElem?_map, ← List.get?_eq_getElem?, countdown_get d j hj,
      Option.map_some', digit_of_mod v d _ (by omega)]
  · unfold parseHex
    rw [parseHex_digits]
    simp

/-- Witness of `uart_puthex_spec`: `uart_puthex(0xDEADBEEF, 8)` on a ready device. -/
theorem uart_puthex_spec_witness :
    ∃ out : List Nat,
      (∃ k F, ∀ f, F ≤ f →
        uart_puthex f 0xDEADBEEF ((8 : Nat) : Int) (Uart.ready []) =
          .ok ((Uart.ready []).sent k out)) ∧
      out.length = 8 ∧
      (∀ c ∈ out, isUpperHex c) ∧
      (∀ j, j < 8 →
        out.get? j = some (hexChar (0xDEADBEEF % 16 ^ 8 / 16 ^ (8 - 1 - j) % 16))) ∧
      parseHex out = 0xDEADBEEF % 16 ^ 8 :=
  uart_puthex_spec 0xDEADBEEF 8 (by norm_num) (by norm_num) (by norm_num) (Uart.ready [])
    (txfree_ready [])

/-! ## `uart_putbin` -/

theorem bit_eq (v i : Nat) : (if (v >>> i) &&& 1 ≠ 0 then 49 else 48) = bitChar v i := by
  unfold bitChar
  rw [Nat.and_one_is_mod, Nat.shiftRight_eq_div_pow]
  by_cases h : v / 2 ^ i % 2 = 1
  · simp [h]
  · have : v / 2 ^ i % 2 = 0 := by omega
    simp [this]

theorem bitChar_cases (v i : Nat) : bitChar v i = 48 ∨ bitChar v i = 49 := by
  unfold bitChar
  split <;> simp

theorem bitChar_ne_lf (v i : Nat) : bitChar v i ≠ 10 := by
  rcases bitChar_cases v i with h | h <;> rw [h] <;> decide

theorem bitChar_ne_space (v i : Nat) : bitChar v i ≠ 32 := by
  rcases bitChar_cases v i with h | h <;> rw [h] <;> decide

theorem uart_putbin_loop_step (f v m : Nat) (u : Uart) (hm : m < 32) :
    uart_putbin_loop (f + 1) v (m : Int) u =
      uart_putc f (bitChar v m) u >>= fun u =>
        (if m % 4 = 0 ∧ m ≠ 0 then uart_putc f 32 u else Except.ok u) >>= fun u =>
          uart_putbin_loop f v ((m : Int) - 1) u := by
  have h0 : (0 : Int) ≤ (m : Int) := by omega
  have h32 : (m : Int) < 32 := by omega
  have hcond : ((m : Int) % 4 = 0 ∧ (m : Int) ≠ 0) ↔ (m % 4 = 0 ∧ m ≠ 0) := by omega
  rw [uart_putbin_loop, if_pos h0, if_pos h32, Int.toNat_ofNat, bit_eq]
  cases uart_putc f (bitChar v m) u with
  | error e => rfl
  | ok u1 =>
    dsimp only
    rw [ok_bind]
    by_cases hc : m % 4 = 0 ∧ m ≠ 0
    · rw [if_pos (hcond.2 hc), if_pos hc]
      cases uart_putc f 32 u1 <;> rfl
    · rw [if_neg (fun h => hc (hcond.1 h)), if_neg hc]
      rfl

theorem uart_putbin_loop_done (f v : Nat) (u : Uart) :
    uart_putbin_loop (f + 1) v (-1) u = .ok u := by
  rw [uart_putbin_loop, if_neg (by decide)]

theorem emits_space_if (m : Nat) :
    Emits (fun f u => if m % 4 = 0 ∧ m ≠ 0 then uart_putc f 32 u else Except.ok u)
      (if m % 4 = 0 ∧ m ≠ 0 then [32] else []) := by
  by_cases hc : m % 4 = 0 ∧ m ≠ 0
  · simp only [if_pos hc]
    exact emits_putc_plain 32 (by decide)
  · simp only [if_neg hc]
    exact emits_ok

theorem emits_putbin_group (v m : Nat) {p : Nat → Uart → Exec Uart} {rest : List Nat}
    (hp : Emits p rest) :
    Emits (fun f u => uart_putc f (bitChar v m) u >>= fun u =>
        (if m % 4 = 0 ∧ m ≠ 0 then uart_putc f 32 u else Except.ok u) >>= fun u => p f u)
      (bitGroup v m ++ rest) := by
  have h1 := emits_putc_plain (bitChar v m) (bitChar_ne_lf v m)
  have h2 := emits_bind (emits_space_if m) hp
  have h3 := emits_bind h1 h2
  refine emits_congr h3 (fun f u => rfl) ?_
  simp [bitGroup]

theorem emits_putbin_loop (v : Nat) :
    ∀ m : Nat, m < 32 → Emits (fun f => uart_putbin_loop f v (m : Int))
      ((countdown (m + 1)).flatMap (bitGroup v)) := by
  intro m
  induction m with
  | zero =>
    intro _
    have hdone : Emits (fun f => uart_putbin_loop f v (-1)) [] :=
      emits_step _ emits_ok (fun f u => uart_putbin_loop_done f v u)
    refine emits_congr (emits_step (fun f => uart_putbin_loop f v ((0 : Nat) : Int))
      (emits_putbin_group v 0 hdone) (fun f u => ?_)) (fun f u => rfl) ?_
    · show uart_putbin_loop (f + 1) v ((0 : Nat) : Int) u = _
      rw [uart_putbin_loop_step f v 0 u (by norm_num)]
      rfl
    · simp [countdown_succ, countdown_zero]
  | succ m ih =>
    intro hm
    have hrest := ih (by omega)
    refine emits_congr (emits_step (fun f => uart_putbin_loop f v ((m + 1 : Nat) : Int))
      (emits_putbin_group v (m + 1) hrest) (fun f u => ?_)) (fun f u => rfl) ?_
    · show uart_putbin_loop (f + 1) v ((m + 1 : Nat) : Int) u = _
      rw [uart_putbin_loop_step f v (m + 1) u hm]
      have e : ((m + 1 : Nat) : Int) - 1 = (m : Int) := by push_cast; ring
      rw [e]
    · rw [countdown_succ (m + 1), List.flatMap_cons]

theorem emits_putbin (v b : Nat) (hb1 : 1 ≤ b) (hb32 : b ≤ 32) :
    Emits (fun f => uart_putbin f v (b : Int)) ((countdown b).flatMap (bitGroup v)) := by
  obtain ⟨m, rfl⟩ : ∃ m, b = m + 1 := ⟨b - 1, by omega⟩
  refine emits_congr (emits_putbin_loop v m (by omega)) (fun f u => ?_) rfl
  unfold uart_putbin
  congr 1
  push_cast; ring

theorem putbin_digits (v : Nat) : ∀ b : Nat,
    ((countdown b).flatMap (bitGroup v)).filter (fun c => c != 32) =
      (countdown b).map (bitChar v) := by
  intro b
  induction b with
  | zero => simp [countdown_zero]
  | succ b ih =>
    rw [countdown_succ, List.flatMap_cons, List.filter_append, ih, List.map_cons]
    have h := bitChar_ne_space v b
    by_cases hc : b % 4 = 0 ∧ b ≠ 0
    · simp [bitGroup, hc, h]
    · simp [bitGroup, hc, h]

theorem putbin_spaces (v : Nat) : ∀ b : Nat,
    ((countdown b).flatMap (bitGroup v)).count 32 = (b - 1) / 4 := by
  intro b
  induction b with
  | zero => simp [countdown_zero]
  | succ b ih =>
    rw [countdown_succ, List.flatMap_cons, List.count_append, ih]
    have h := bitChar_ne_space v b
    have h' : (bitChar v b == 32) = false := by simpa using h
    by_cases hc : b % 4 = 0 ∧ b ≠ 0
    · simp [bitGroup, hc, List.count_cons, h']; omega
    · simp [bitGroup, hc, List.count_cons, h']; omega

theorem countdown_snoc (n : Nat) : countdown (n + 1) = (countdown n).map (· + 1) ++ [0] := by
  simp [countdown, List.range_succ_eq_map]

theorem putbin_last (v : Nat) (b : Nat) (hb : 1 ≤ b) :
    ((countdown b).flatMap (bitGroup v)).getLast? = some (bitChar v 0) := by
  obtain ⟨m, rfl⟩ : ∃ m, b = m + 1 := ⟨b - 1, by omega⟩
  rw [countdown_snoc, List.flatMap_append]
  simp [bitGroup]

theorem putbin_head (v : Nat) (b : Nat) (hb : 1 ≤ b) :
    ((countdown b).flatMap (bitGroup v)).head? = some (bitChar v (b - 1)) := by
  obtain ⟨m, rfl⟩ : ∃ m, b = m + 1 := ⟨b - 1, by omega⟩
  rw [countdown_succ, List.flatMap_cons]
  simp [bitGroup]

/-- C3: for every 32-bit value `v` and bit count `b` with `1 <= b <= 32`, on a
device whose transmitter always eventually has space, `uart_putbin(v, b)`
returns and what it has sent is, for `i = b - 1` down to `0`, the character
`'0'` or `'1'` of bit `i` of `v`, followed by one space exactly when `i` is a
non-zero multiple of 4.  Without the spaces the output is the `b` bits
`b - 1, ..., 0` of `v` in that order; it contains `(b - 1) / 4` spaces, does
not start with a space and does not end with one. -/
theorem uart_putbin_spec (v b : Nat) (hv : v < 2 ^ 32) (hb1 : 1 ≤ b) (hb32 : b ≤ 32)
    (u : Uart) (hu : TxEventuallyFree u) :
    ∃ out : List Nat,
      (∃ k F, ∀ f, F ≤ f → uart_putbin f v (b : Int) u = .ok (u.sent k out)) ∧
      out = (countdown b).flatMap
        (fun i => bitChar v i :: (if i % 4 = 0 ∧ i ≠ 0 then [32] else [])) ∧
      out.filter (fun c => c != 32) = (countdown b).map (bitChar v) ∧
      (out.filter (fun c => c != 32)).length = b ∧
      (∀ i, bitChar v i = 48 ∨ bitChar v i = 49) ∧
      out.count 32 = (b - 1) / 4 ∧
      out.head? = some (bitChar v (b - 1)) ∧
      out.getLast? = some (bitChar v 0) := by
  have _ := hv
  refine ⟨(countdown b).flatMap (bitGroup v), emits_putbin v b hb1 hb32 u hu, rfl,
    putbin_digits v b, ?_, bitChar_cases v, putbin_spaces v b, putbin_head v b hb1,
    putbin_last v b hb1⟩
  rw [putbin_digits, List.length_map, length_countdown]

/-- Witness of `uart_putbin_spec`: `uart_putbin(0xA5, 10)` on a ready device. -/
theorem uart_putbin_spec_witness :
    ∃ out : List Nat,
      (∃ k F, ∀ f, F ≤ f →
        uart_putbin f 0xA5 ((10 : Nat) : Int) (Uart.ready []) =
          .ok ((Uart.ready []).sent k out)) ∧
      out = (countdown 10).flatMap
        (fun i => bitChar 0xA5 i :: (if i % 4 = 0 ∧ i ≠ 0 then [32] else [])) ∧
      out.filter (fun c => c != 32) = (countdown 10).map (bitChar 0xA5) ∧
      (out.filter (fun c => c != 32)).length = 10 ∧
      (∀ i, bitChar 0xA5 i = 48 ∨ bitChar 0xA5 i = 49) ∧
      out.count 32 = (10 - 1) / 4 ∧
      out.head? = some (bitChar 0xA5 (10 - 1)) ∧
      out.getLast? = some (bitChar 0xA5 0) :=
  uart_putbin_spec 0xA5 10 (by norm_num) (by norm_num) (by norm_num) (Uart.ready [])
    (txfree_ready [])

/-! ## `uart_putdec` -/

theorem wire_plain (s : List Nat) (h : ∀ c ∈ s, c ≠ 10) : wire s = s := by
  induction s with
  | nil => simp [wire]
  | cons c s ih =>
    have hc : c ≠ 10 := h c (List.mem_cons_self c s)
    have : wire (c :: s) = wireByte c ++ wire s := by simp [wire]
    rw [this, ih (fun x hx => h x (List.mem_cons_of_mem c hx))]
    simp [wireByte, hc]

theorem take_set_succ (a : Nat) : ∀ (l : List Nat) (i : Nat), i < l.length →
    (l.set i a).take (i + 1) = l.take i ++ [a] := by
  intro l
  induction l with
  | nil => intro i h; simp at h
  | cons x l ih =>
    intro i h
    cases i with
    | zero => simp
    | succ i =>
      have h1 : i < l.length := by simpa using h
      simp [ih i h1]

theorem digits_length_le_20 (v : Nat) (hv : v < 2 ^ 64) : (Nat.digits 10 v).length ≤ 20 := by
  by_contra hlen
  have h21 : 21 ≤ (Nat.digits 10 v).length := by omega
  have hv0 : v ≠ 0 := by
    rintro rfl
    simp at h21
  have h1 := Nat.base_pow_length_digits_le 10 v (by norm_num) hv0
  have h2 : 10 ^ 21 ≤ 10 ^ (Nat.digits 10 v).length := Nat.pow_le_pow_right (by norm_num) h21
  have h3 : 10 ^ 21 ≤ 10 * v := le_trans h2 h1
  norm_num at h3 hv
  omega

theorem uart_putdec_fill_spec : ∀ (value : Nat) (buffer : List Nat) (i : Nat),
    i + (Nat.digits 10 value).length ≤ buffer.length →
    ∃ b, (∀ fuel, (Nat.digits 10 value).length < fuel →
        uart_putdec_fill fuel value buffer i = .ok (b, i + (Nat.digits 10 value).length)) ∧
      b.length = buffer.length ∧
      b.take (i + (Nat.digits 10 value).length) =
        buffer.take i ++ (Nat.digits 10 value).map (fun d => 48 + d) := by
  intro value
  induction value using Nat.strong_induction_on with
  | _ value ih =>
    intro buffer i hb
    by_cases hv : value > 0
    · have hd := @Nat.digits_def' 10 (by norm_num) value hv
      rw [hd] at hb ⊢
      simp only [List.length_cons] at hb ⊢
      have hi : i < buffer.length := by omega
      have hlen : (buffer.set i (48 + value % 10)).length = buffer.length := List.length_set ..
      have hb' : i + 1 + (Nat.digits 10 (value / 10)).length ≤
          (buffer.set i (48 + value % 10)).length := by rw [hlen]; omega
      obtain ⟨b, hb1, hb2, hb3⟩ := ih (value / 10) (Nat.div_lt_self hv (by norm_num))
        (buffer.set i (48 + value % 10)) (i + 1) hb'
      have e : i + ((Nat.digits 10 (value / 10)).length + 1) =
          i + 1 + (Nat.digits 10 (value / 10)).length := by omega
      refine ⟨b, ?_, ?_, ?_⟩
      · intro fuel hf
        obtain ⟨f, rfl⟩ : ∃ g, fuel = g + 1 := ⟨fuel - 1, by omega⟩
        rw [uart_putdec_fill, if_pos hv, if_pos hi, hb1 f (by omega), e]
      · rw [hb2, hlen]
      · rw [e, hb3, take_set_succ _ buffer i hi]
        simp
    · have hz : value = 0 := by omega
      subst hz
      refine ⟨buffer, ?_, rfl, ?_⟩
      · intro fuel hf
        obtain ⟨f, rfl⟩ : ∃ g, fuel = g + 1 := ⟨fuel - 1, by omega⟩
        rw [uart_putdec_fill, if_neg hv]
        simp
      · simp

theorem uart_putdec_emit_step (f n : Nat) (buffer : List Nat) (u : Uart) (c : Nat)
    (hc : buffer.get? n = some c) :
    uart_putdec_emit (f + 1) buffer ((n + 1 : Nat) : Int) u =
      uart_putc f c u >>= fun u => uart_putdec_emit f buffer (n : Int) u := by
  have h0 : (0 : Int) ≤ ((n + 1 : Nat) : Int) - 1 := by push_cast; omega
  have e : ((n + 1 : Nat) : Int) - 1 = (n : Int) := by push_cast; ring
  rw [uart_putdec_emit, if_pos h0, e, Int.toNat_ofNat, hc]
  dsimp only
  cases uart_putc f c u <;> rfl

theorem uart_putdec_emit_done (f : Nat) (buffer : List Nat) (u : Uart) :
    uart_putdec_emit (f + 1) buffer ((0 : Nat) : Int) u = .ok u := by
  rw [uart_putdec_emit, if_neg (by decide)]

theorem emits_putdec_emit (buffer : List Nat) :
    ∀ n : Nat, n ≤ buffer.length →
      Emits (fun f => uart_putdec_emit f buffer (n : Int)) (wire (buffer.take n).reverse) := by
  intro n
  induction n with
  | zero =>
    intro _
    refine emits_congr (emits_step
      (fun f => uart_putdec_emit f buffer ((0 : Nat) : Int)) emits_ok
      (fun f u => uart_putdec_emit_done f buffer u)) (fun f u => rfl) (by simp [wire])
  | succ n ih =>
    intro hn
    have hlt : n < buffer.length := by omega
    have hget : buffer.get? n = some buffer[n] := by simp [hlt]
    refine emits_congr (emits_step
      (fun f => uart_putdec_emit f buffer ((n + 1 : Nat) : Int))
      (emits_bind (emits_putc buffer[n]) (ih (by omega)))
      (fun f u => uart_putdec_emit_step f n buffer u _ hget)) (fun f u => rfl) ?_
    have ht : buffer.take (n + 1) = buffer.take n ++ [buffer[n]] := by
      rw [List.take_succ]; simp [hlt]
    rw [ht, List.reverse_append]
    simp only [wire, List.reverse_cons, List.reverse_nil, List.nil_append,
      List.singleton_append, List.flatMap_cons]

theorem dec_chars_plain (v : Nat) :
    ∀ c ∈ ((Nat.digits 10 v).map (fun d => 48 + d)).reverse, 48 ≤ c ∧ c ≤ 57 := by
  intro c hc
  rw [List.mem_reverse, List.mem_map] at hc
  obtain ⟨d, hd, rfl⟩ := hc
  have := @Nat.digits_lt_base 10 v d (by norm_num) hd
  omega

theorem emits_putdec (v : Nat) (hv : v < 2 ^ 64) (buffer : List Nat) (hb : buffer.length = 20) :
    Emits (fun f => uart_putdec f v buffer)
      (if v = 0 then [48] else ((Nat.digits 10 v).map (fun d => 48 + d)).reverse) := by
  by_cases h0 : v = 0
  · subst h0
    refine emits_congr (emits_putc_plain 48 (by decide)) (fun f u => ?_) (by simp)
    simp [uart_putdec]
  · rw [if_neg h0]
    have hlen := digits_length_le_20 v hv
    obtain ⟨b, hb1, hb2, hb3⟩ := uart_putdec_fill_spec v buffer 0 (by omega)
    have hemit := emits_putdec_emit b (Nat.digits 10 v).length (by omega)
    intro u hu
    obtain ⟨k, F, hk⟩ := hemit u hu
    refine ⟨k, max F 21, fun f hf => ?_⟩
    have hF : F ≤ f := le_trans (le_max_left _ _) hf
    have h21 : 21 ≤ f := le_trans (le_max_right _ _) hf
    simp only [Nat.zero_add, List.take_zero, List.nil_append] at hb1 hb3
    dsimp only at hk ⊢
    rw [uart_putdec, if_neg h0, hb1 f (by omega)]
    dsimp only
    rw [hk f hF, hb3, wire_plain _ (fun c hc => by
      have := dec_chars_plain v c hc
      omega)]

theorem parseDec_digits (ds : List Nat) :
    parseDec ((ds.map (fun d => 48 + d)).reverse) = Nat.ofDigits 10 ds := by
  unfold parseDec
  rw [List.foldl_reverse]
  induction ds with
  | nil => simp
  | cons d ds ih =>
    rw [List.map_cons, List.foldr_cons, ih, Nat.ofDigits_cons]
    omega

theorem dec_head (v : Nat) (hv : 0 < v) :
    ∃ c rest, ((Nat.digits 10 v).map (fun d => 48 + d)).reverse = c :: rest ∧ c ≠ 48 := by
  have hne : Nat.digits 10 v ≠ [] := Nat.digits_ne_nil_iff_ne_zero.mpr (by omega)
  have hlast := @Nat.getLast_digit_ne_zero 10 v (by omega)
  have hh : (((Nat.digits 10 v).map (fun d => 48 + d)).reverse).head? =
      some (48 + (Nat.digits 10 v).getLast hne) := by
    rw [List.head?_reverse, List.getLast?_map, List.getLast?_eq_getLast _ hne]
    rfl
  cases hout : ((Nat.digits 10 v).map (fun d => 48 + d)).reverse with
  | nil => rw [hout] at hh; simp at hh
  | cons c rest =>
    rw [hout] at hh
    simp only [List.head?_cons, Option.some.injEq] at hh
    exact ⟨c, rest, rfl, by omega⟩

/-- C2: for a 64-bit value `v`, on a device whose transmitter always
eventually has space, `uart_putdec(v)` returns and what it has sent is a
string `out` such that: for `v = 0`, `out` is the single character `'0'`; for
`v > 0`, `out` consists of decimal digit characters only, its first character
is not `'0'`, and read as a base-10 number it is `v`. -/
theorem uart_putdec_spec (v : Nat) (hv : v < 2 ^ 64) (buffer : List Nat)
    (hb : buffer.length = 20) (u : Uart) (hu : TxEventuallyFree u) :
    ∃ out : List Nat,
      (∃ k F, ∀ f, F ≤ f → uart_putdec f v buffer u = .ok (u.sent k out)) ∧
      (v = 0 → out = [48]) ∧
      (0 < v → (∀ c ∈ out, 48 ≤ c ∧ c ≤ 57) ∧ (∃ c rest, out = c :: rest ∧ c ≠ 48) ∧
        parseDec out = v) := by
  refine ⟨_, emits_putdec v hv buffer hb u hu, fun h0 => by simp [h0], fun hpos => ?_⟩
  have h0 : v ≠ 0 := by omega
  rw [if_neg h0]
  exact ⟨dec_chars_plain v, dec_head v hpos, by rw [parseDec_digits, Nat.ofDigits_digits]⟩

/-- Witness of `uart_putdec_spec`: `uart_putdec(123456789)` on a ready device. -/
theorem uart_putdec_spec_witness :
    ∃ out : List Nat,
      (∃ k F, ∀ f, F ≤ f → uart_putdec f 123456789 (List.replicate 20 0) (Uart.ready []) =
        .ok ((Uart.ready []).sent k out)) ∧
      (123456789 = 0 → out = [48]) ∧
      (0 < 123456789 → (∀ c ∈ out, 48 ≤ c ∧ c ≤ 57) ∧ (∃ c rest, out = c :: rest ∧ c ≠ 48) ∧
        parseDec out = 123456789) :=
  uart_putdec_spec 123456789 (by norm_num) (List.replicate 20 0) (by simp) (Uart.ready [])
    (txfree_ready [])

/-! ## Bounds of the buffer of `uart_putdec` -/

theorem uart_putc_no_bounds : ∀ (f c : Nat) (u : Uart), uart_putc f c u ≠ .error .bounds := by
  intro f
  induction f with
  | zero => intro c u; simp [uart_putc]
  | succ f ih =>
    intro c u
    rw [uart_putc]
    split
    · exact ih _ _
    · dsimp only
      split
      · exact ih _ _
      · simp

theorem uart_putdec_emit_no_bounds (buffer : List Nat) :
    ∀ (f n : Nat) (u : Uart), n ≤ buffer.length →
      uart_putdec_emit f buffer (n : Int) u ≠ .error .bounds := by
  intro f
  induction f with
  | zero => intro n u _; simp [uart_putdec_emit]
  | succ f ih =>
    intro n u hn
    cases n with
    | zero => rw [uart_putdec_emit_done]; simp
    | succ n =>
      have hlt : n < buffer.length := by omega
      have hget : buffer.get? n = some buffer[n] := by simp [hlt]
      rw [uart_putdec_emit_step f n buffer u _ hget]
      cases hp : uart_putc f buffer[n] u with
      | error e =>
        rw [error_bind]
        intro h
        apply uart_putc_no_bounds f buffer[n] u
        rw [hp, h]
      | ok u1 =>
        rw [ok_bind]
        exact ih n u1 (by omega)

theorem uart_putdec_fill_short : ∀ (fuel value : Nat) (buffer : List Nat) (i : Nat),
    fuel ≤ (Nat.digits 10 value).length → i + (Nat.digits 10 value).length ≤ buffer.length →
    uart_putdec_fill fuel value buffer i = .error .fuel := by
  intro fuel
  induction fuel with
  | zero => intro value buffer i _ _; rw [uart_putdec_fill]
  | succ fuel ih =>
    intro value buffer i hf hb
    have hv : value > 0 := by
      by_contra h
      have : value = 0 := by omega
      subst this
      simp at hf
    have hd := @Nat.digits_def' 10 (by norm_num) value hv
    rw [hd] at hf hb
    simp only [List.length_cons] at hf hb
    have hi : i < buffer.length := by omega
    rw [uart_putdec_fill, if_pos hv, if_pos hi]
    exact ih _ _ _ (by omega) (by rw [List.length_set]; omega)

theorem uart_putdec_fill_overflow : ∀ (fuel value : Nat) (buffer : List Nat) (i : Nat),
    i ≤ buffer.length → buffer.length < i + (Nat.digits 10 value).length →
    buffer.length - i < fuel → uart_putdec_fill fuel value buffer i = .error .bounds := by
  intro fuel
  induction fuel with
  | zero => intro value buffer i _ _ h; omega
  | succ fuel ih =>
    intro value buffer i hi hb hf
    have hv : value > 0 := by
      by_contra h
      have : value = 0 := by omega
      subst this
      simp at hb
      omega
    have hd := @Nat.digits_def' 10 (by norm_num) value hv
    rw [hd] at hb
    simp only [List.length_cons] at hb
    rw [uart_putdec_fill, if_pos hv]
    by_cases hlt : i < buffer.length
    · rw [if_pos hlt]
      exact ih _ _ _ (by rw [List.length_set]; omega) (by rw [List.length_set]; omega)
        (by rw [List.length_set]; omega)
    · rw [if_neg hlt]

theorem uart_putdec_no_bounds (v : Nat) (hv : v < 2 ^ 64) (buffer : List Nat)
    (hb : buffer.length = 20) (fuel : Nat) (u : Uart) :
    uart_putdec fuel v buffer u ≠ .error .bounds := by
  have hlen := digits_length_le_20 v hv
  unfold uart_putdec
  split
  · exact uart_putc_no_bounds _ _ _
  · by_cases hf : (Nat.digits 10 v).length < fuel
    · obtain ⟨b, hb1, hb2, _⟩ := uart_putdec_fill_spec v buffer 0 (by omega)
      rw [hb1 fuel hf]
      dsimp only
      rw [Nat.zero_add]
      exact uart_putdec_emit_no_bounds b fuel _ u (by omega)
    · rw [uart_putdec_fill_short fuel v buffer 0 (by omega) (by omega)]
      simp

theorem digits_length_ge_20 (v : Nat) (hv : 10 ^ 19 ≤ v) : 20 ≤ (Nat.digits 10 v).length := by
  have h2 := @Nat.lt_base_pow_length_digits 10 v (by norm_num)
  by_contra hne
  have h3 : (Nat.digits 10 v).length ≤ 19 := by omega
  have h4 : 10 ^ (Nat.digits 10 v).length ≤ 10 ^ 19 :=
    Nat.pow_le_pow_right (by norm_num) h3
  omega

theorem digits_length_ge_21 (v : Nat) (hv : 10 ^ 20 ≤ v) : 21 ≤ (Nat.digits 10 v).length := by
  have h2 := @Nat.lt_base_pow_length_digits 10 v (by norm_num)
  by_contra hne
  have h3 : (Nat.digits 10 v).length ≤ 20 := by omega
  have h4 : 10 ^ (Nat.digits 10 v).length ≤ 10 ^ 20 :=
    Nat.pow_le_pow_right (by norm_num) h3
  omega

/-- C10: for every 64-bit value `v`, the first loop of `uart_putdec` stores
`n <= 20` digits, in slots `0 .. n - 1` of the 20-element buffer, and the
second loop reads slots `n - 1 .. 0`: whatever the fuel and the device, the
run never stops with an index outside the buffer.  The bound is tight: for
`v = 18446744073709551615` the first loop ends with `i = 20`, all 20 slots
written, and a number of 21 digits (which no 64-bit value is) would index
slot 20. -/
theorem uart_putdec_buffer_bounds (v : Nat) (hv : v < 2 ^ 64) (buffer : List Nat)
    (hb : buffer.length = 20) :
    (∃ b n, n ≤ 20 ∧ n = (Nat.digits 10 v).length ∧ b.length = 20 ∧
      ∀ fuel, 20 < fuel → uart_putdec_fill fuel v buffer 0 = .ok (b, n)) ∧
    (∀ fuel u, uart_putdec fuel v buffer u ≠ .error .bounds) ∧
    (∃ b, ∀ fuel, 20 < fuel →
      uart_putdec_fill fuel 18446744073709551615 buffer 0 = .ok (b, 20)) ∧
    (∀ fuel, 20 < fuel → uart_putdec_fill fuel (10 ^ 20) buffer 0 = .error .bounds) := by
  have hlen := digits_length_le_20 v hv
  refine ⟨?_, fun fuel u => uart_putdec_no_bounds v hv buffer hb fuel u, ?_, ?_⟩
  · obtain ⟨b, hb1, hb2, _⟩ := uart_putdec_fill_spec v buffer 0 (by omega)
    refine ⟨b, _, hlen, rfl, by omega, fun fuel hf => ?_⟩
    rw [hb1 fuel (by omega), Nat.zero_add]
  · have hmax : (Nat.digits 10 18446744073709551615).length = 20 :=
      le_antisymm (digits_length_le_20 _ (by norm_num)) (digits_length_ge_20 _ (by norm_num))
    obtain ⟨b, hb1, _, _⟩ := uart_putdec_fill_spec 18446744073709551615 buffer 0 (by omega)
    refine ⟨b, fun fuel hf => ?_⟩
    rw [hb1 fuel (by omega), Nat.zero_add, hmax]
  · intro fuel hf
    have h21 := digits_length_ge_21 (10 ^ 20) (le_refl _)
    exact uart_putdec_fill_overflow fuel (10 ^ 20) buffer 0 (by omega) (by omega) (by omega)

/-- Witness of `uart_putdec_buffer_bounds`: the largest 64-bit value. -/
theorem uart_putdec_buffer_bounds_witness :
    (∃ b n, n ≤ 20 ∧ n = (Nat.digits 10 18446744073709551615).length ∧ b.length = 20 ∧
      ∀ fuel, 20 < fuel →
        uart_putdec_fill fuel 18446744073709551615 (List.replicate 20 0) 0 = .ok (b, n)) ∧
    (∀ fuel u,
      uart_putdec fuel 18446744073709551615 (List.replicate 20 0) u ≠ .error .bounds) ∧
    (∃ b, ∀ fuel, 20 < fuel →
      uart_putdec_fill fuel 18446744073709551615 (List.replicate 20 0) 0 = .ok (b, 20)) ∧
    (∀ fuel, 20 < fuel →
      uart_putdec_fill fuel (10 ^ 20) (List.replicate 20 0) 0 = .error .bounds) :=
  uart_putdec_buffer_bounds 18446744073709551615 (by norm_num) (List.replicate 20 0) (by simp)

/-! ## The interactive loop of `boot_main` -/

theorem boot_main_pass_idle (f : Nat) (regs : Nat → Nat) (e : Nat) (u : Uart)
    (h : u.fr u.frReads &&& UART_FR_RXFE ≠ 0) :
    boot_main_pass f regs e u = .ok (Ctl.next, e, u.polled 1) := by
  simp [boot_main_pass, uart_getc_available, h, Uart.polled, pure_eq_ok]

theorem boot_main_pass_recv (f : Nat) (regs : Nat → Nat) (e : Nat) (u : Uart) (hf : 1 ≤ f)
    (h0 : u.fr u.frReads &&& UART_FR_RXFE = 0)
    (h1 : u.fr (u.frReads + 1) &&& UART_FR_RXFE = 0) :
    boot_main_pass f regs e u =
      boot_main_switch f regs (u.dr u.drReads &&& 0xFF) e (u.received 1) := by
  obtain ⟨f, rfl⟩ : ∃ g, f = g + 1 := ⟨f - 1, by omega⟩
  simp [boot_main_pass, uart_getc_available, h0, uart_getc, h1, ok_bind, Uart.received]

theorem boot_step_next (f : Nat) (regs : Nat → Nat) (s : Boot) (e : Nat) (u : Uart)
    (hs : s.phase = Phase.interactive)
    (h : boot_main_pass f regs s.echo_on s.uart = .ok (Ctl.next, e, u)) :
    boot_step f regs s = .ok { s with echo_on := e, uart := u } := by
  simp [boot_step, hs, h, ok_bind, pure_eq_ok]

theorem boot_step_halted (f : Nat) (regs : Nat → Nat) (s : Boot) (hs : s.phase = Phase.halted) :
    boot_step f regs s = .ok s := by
  simp [boot_step, hs, pure_eq_ok]

theorem boot_run_halted (f : Nat) (regs : Nat → Nat) (s : Boot) (hs : s.phase = Phase.halted) :
    ∀ n, boot_run f regs n s = .ok s := by
  intro n
  induction n with
  | zero => rfl
  | succ n ih => rw [boot_run, boot_step_halted f regs s hs, ok_bind, ih]

theorem boot_run_succ (f : Nat) (regs : Nat → Nat) (n : Nat) (s : Boot) :
    boot_run f regs (n + 1) s = boot_step f regs s >>= boot_run f regs n := rfl

theorem boot_run_add (f : Nat) (regs : Nat → Nat) (s s1 : Boot) :
    ∀ (m n : Nat) , boot_run f regs m s = .ok s1 →
      boot_run f regs (m + n) s = boot_run f regs n s1 := by
  intro m
  induction m generalizing s with
  | zero =>
    intro n h
    have : s = s1 := by simpa [boot_run, pure_eq_ok] using h
    subst this
    simp
  | succ m ih =>
    intro n h
    rw [boot_run_succ] at h
    have e : m + 1 + n = (m + n) + 1 := by omega
    rw [e, boot_run_succ]
    cases hs : boot_step f regs s with
    | error x => rw [hs, error_bind] at h; cases h
    | ok s2 =>
      rw [hs, ok_bind] at h
      rw [ok_bind]
      exact ih s2 n h

theorem lit_ne_zero_of (l : List Nat) (h : l.all (fun c => c != 0) = true) :
    ∀ c ∈ l, c ≠ 0 := by
  intro c hc
  have := List.all_eq_true.1 h c hc
  simpa using this

theorem emitsR_switch_esc (regs : Nat → Nat) (e : Nat) :
    EmitsR (fun f => boot_main_switch f regs 0x1B e) (wire exit_text)
      (fun u => (Ctl.leave, e, u)) := by
  have h := emits_bindR
    (emits_lit "\r\n[SYSTEM] Exiting echo test\r\n" (lit_ne_zero_of _ (by decide)))
    (emitsR_pure (fun u => (Ctl.leave, e, u)))
  intro u hu
  obtain ⟨k, F, hk⟩ := h u hu
  refine ⟨k, F, fun f hf => ?_⟩
  have := hk f hf
  simpa [boot_main_switch, exit_text] using this

theorem emitsR_switch_e (regs : Nat → Nat) (e : Nat) (he : e ≠ 0) :
    EmitsR (fun f => boot_main_switch f regs 101 e) (wire echo_off_text)
      (fun u => (Ctl.next, 0, u)) := by
  have h := emits_bindR
    (emits_lit "\r\n[ECHO] Echo " (lit_ne_zero_of _ (by decide)))
    (emits_bindR (emits_lit "OFF" (lit_ne_zero_of _ (by decide)))
    (emits_bindR (emits_lit "\r\n> " (lit_ne_zero_of _ (by decide)))
    (emitsR_pure (fun u => (Ctl.next, 0, u)))))
  intro u hu
  obtain ⟨k, F, hk⟩ := h u hu
  refine ⟨k, F, fun f hf => ?_⟩
  have := hk f hf
  simpa [boot_main_switch, echo_off_text, he, wire_append] using this

theorem emitsR_switch_help_off (regs : Nat → Nat) :
    EmitsR (fun f => boot_main_switch f regs 63 0) (wire help_text_off)
      (fun u => (Ctl.next, 0, u)) := by
  have h := emits_bindR
    (emits_lit "\r\n[HELP] Commands:\r\n" (lit_ne_zero_of _ (by decide)))
    (emits_bindR (emits_lit "  ESC - Exit echo test\r\n" (lit_ne_zero_of _ (by decide)))
    (emits_bindR (emits_lit "  ?   - This help\r\n" (lit_ne_zero_of _ (by decide)))
    (emits_bindR (emits_lit "  d   - Dump registers\r\n" (lit_ne_zero_of _ (by decide)))
    (emits_bindR (emits_lit "  r   - Reboot system\r\n" (lit_ne_zero_of _ (by decide)))
    (emits_bindR (emits_lit "  e   - Toggle echo (" (lit_ne_zero_of _ (by decide)))
    (emits_bindR (emits_lit "OFF" (lit_ne_zero_of _ (by decide)))
    (emits_bindR (emits_lit ")\r\n" (lit_ne_zero_of _ (by decide)))
    (emits_bindR (emits_lit "> " (lit_ne_zero_of _ (by decide)))
    (emitsR_pure (fun u => (Ctl.next, 0, u)))))))))))
  intro u hu
  obtain ⟨k, F, hk⟩ := h u hu
  refine ⟨k, F, fun f hf => ?_⟩
  have := hk f hf
  simpa [boot_main_switch, help_text_off, wire_append] using this

theorem emitsR_switch_echo (regs : Nat → Nat) (c e : Nat) (he : e ≠ 0)
    (hc : c ≠ 0x1B ∧ c ≠ 63 ∧ c ≠ 100 ∧ c ≠ 101 ∧ c ≠ 114) :
    EmitsR (fun f => boot_main_switch f regs c e) (wireByte c) (fun u => (Ctl.next, e, u)) := by
  have h := emits_bindR (emits_putc c) (emitsR_pure (fun u => (Ctl.next, e, u)))
  intro u hu
  obtain ⟨k, F, hk⟩ := h u hu
  refine ⟨k, F, fun f hf => ?_⟩
  have := hk f hf
  simpa [boot_main_switch, hc.1, hc.2.1, hc.2.2.1, hc.2.2.2.1, hc.2.2.2.2, he] using this

theorem boot_main_switch_mute (f : Nat) (regs : Nat → Nat) (c : Nat) (u : Uart)
    (hc : c ≠ 0x1B ∧ c ≠ 63 ∧ c ≠ 100 ∧ c ≠ 101 ∧ c ≠ 114) :
    boot_main_switch f regs c 0 u = .ok (Ctl.next, 0, u) := by
  simp [boot_main_switch, hc.1, hc.2.1, hc.2.2.1, hc.2.2.2.1, hc.2.2.2.2, pure_eq_ok]

theorem boot_step_command (regs : Nat → Nat) (s : Boot) (c e : Nat) (bytes : List Nat)
    (hs : s.phase = Phase.interactive) (hu : TxEventuallyFree s.uart)
    (h0 : s.uart.fr s.uart.frReads &&& UART_FR_RXFE = 0)
    (h1 : s.uart.fr (s.uart.frReads + 1) &&& UART_FR_RXFE = 0)
    (hc : s.uart.dr s.uart.drReads &&& 0xFF = c)
    (hsw : EmitsR (fun f => boot_main_switch f regs c s.echo_on) bytes
      (fun u => (Ctl.next, e, u))) :
    ∃ k F, ∀ f, F ≤ f → boot_step f regs s =
      .ok { s with echo_on := e, uart := (s.uart.received 1).sent k bytes } := by
  obtain ⟨k, F, hk⟩ := hsw (s.uart.received 1) hu
  refine ⟨k, max F 1, fun f hf => ?_⟩
  have hF : F ≤ f := le_trans (le_max_left _ _) hf
  have hf1 : 1 ≤ f := le_trans (le_max_right _ _) hf
  apply boot_step_next f regs s e _ hs
  rw [boot_main_pass_recv f regs s.echo_on s.uart hf1 h0 h1, hc]
  exact hk f hF

theorem emitsR_halt (s : Boot) (e : Nat) :
    EmitsR (fun f u => do
        let u ← uart_puts f (cstr "\r\n[SYSTEM] Bootloader completed successfully\r\n") u
        let u ← uart_puts f (cstr "[SYSTEM] Entering system halt...\r\n") u
        system_halt f { s with echo_on := e, uart := u })
      (wire halt_text)
      (fun u => { phase := Phase.halted, echo_on := e, daif := s.daif ||| 0xF, uart := u }) := by
  have h := emits_bindR
    (emits_lit "\r\n[SYSTEM] Bootloader completed successfully\r\n"
      (lit_ne_zero_of _ (by decide)))
    (emits_bindR (emits_lit "[SYSTEM] Entering system halt...\r\n" (lit_ne_zero_of _ (by decide)))
    (emits_bindR (emits_lit "\n[SYSTEM] Halting CPU...\n" (lit_ne_zero_of _ (by decide)))
    (emitsR_pure (fun u =>
      ({ phase := Phase.halted, echo_on := e, daif := s.daif ||| 0xF, uart := u } : Boot)))))
  intro u hu
  obtain ⟨k, F, hk⟩ := h u hu
  refine ⟨k, F, fun f hf => ?_⟩
  have := hk f hf
  simpa [system_halt, halt_text, wire_append] using this

theorem boot_step_leave (regs : Nat → Nat) (s : Boot) (c e : Nat) (bytes : List Nat)
    (hs : s.phase = Phase.interactive) (hu : TxEventuallyFree s.uart)
    (h0 : s.uart.fr s.uart.frReads &&& UART_FR_RXFE = 0)
    (h1 : s.uart.fr (s.uart.frReads + 1) &&& UART_FR_RXFE = 0)
    (hc : s.uart.dr s.uart.drReads &&& 0xFF = c)
    (hsw : EmitsR (fun f => boot_main_switch f regs c s.echo_on) bytes
      (fun u => (Ctl.leave, e, u))) :
    ∃ k F, ∀ f, F ≤ f → boot_step f regs s =
      .ok { phase := Phase.halted, echo_on := e, daif := s.daif ||| 0xF,
            uart := (s.uart.received 1).sent k (bytes ++ wire halt_text) } := by
  obtain ⟨k1, F1, hk1⟩ := hsw (s.uart.received 1) hu
  obtain ⟨k2, F2, hk2⟩ := emitsR_halt s e ((s.uart.received 1).sent k1 bytes) hu
  refine ⟨k1 + k2, max (max F1 F2) 1, fun f hf => ?_⟩
  have hF1 : F1 ≤ f := le_trans (le_trans (le_max_left _ _) (le_max_left _ _)) hf
  have hF2 : F2 ≤ f := le_trans (le_trans (le_max_right _ _) (le_max_left _ _)) hf
  have hf1 : 1 ≤ f := le_trans (le_max_right _ _) hf
  have hpass : boot_main_pass f regs s.echo_on s.uart =
      .ok (Ctl.leave, e, (s.uart.received 1).sent k1 bytes) := by
    rw [boot_main_pass_recv f regs s.echo_on s.uart hf1 h0 h1, hc]
    exact hk1 f hF1
  have h2 := hk2 f hF2
  rw [sent_sent] at h2
  rw [← h2]
  simp [boot_step, hs, hpass, ok_bind]

theorem boot_run_idle (f : Nat) (regs : Nat → Nat) :
    ∀ (n : Nat) (s : Boot), s.phase = Phase.interactive →
      (∀ k, k < n → s.uart.fr (s.uart.frReads + k) &&& UART_FR_RXFE ≠ 0) →
      boot_run f regs n s = .ok { s with uart := s.uart.polled n } := by
  intro n
  induction n with
  | zero =>
    intro s _ _
    cases s with
    | mk ph e d u => cases u; simp [boot_run, pure_eq_ok, Uart.polled]
  | succ n ih =>
    intro s hs h
    have h0 : s.uart.fr s.uart.frReads &&& UART_FR_RXFE ≠ 0 := by simpa using h 0 (by omega)
    rw [boot_run_succ, boot_step_next f regs s s.echo_on (s.uart.polled 1) hs
      (boot_main_pass_idle f regs s.echo_on s.uart h0), ok_bind]
    rw [ih { s with echo_on := s.echo_on, uart := s.uart.polled 1 } hs (fun k hk => by
      have := h (k + 1) (by omega)
      have e1 : s.uart.frReads + 1 + k = s.uart.frReads + (k + 1) := by omega
      simpa [Uart.polled, e1] using this)]
    simp [Uart.polled, Nat.add_assoc, Nat.add_comm 1 n]

theorem boot_run_key (regs : Nat → Nat) (s : Boot) (m c e : Nat) (bytes : List Nat)
    (hs : s.phase = Phase.interactive) (hu : TxEventuallyFree s.uart)
    (hk : KeyArrives s.uart m c)
    (hsw : EmitsR (fun f => boot_main_switch f regs c s.echo_on) bytes
      (fun u => (Ctl.next, e, u))) :
    ∃ p F, ∀ f, F ≤ f → boot_run f regs (m + 1) s =
      .ok { s with echo_on := e, uart := s.uart.after p 1 bytes } := by
  obtain ⟨hidle, h0, h1, hc⟩ := hk
  obtain ⟨k, F, hstep⟩ := boot_step_command regs { s with uart := s.uart.polled m } c e bytes
    hs hu h0 (by simpa [Uart.polled, Nat.add_assoc] using h1) hc hsw
  refine ⟨m + 2 + k, F, fun f hf => ?_⟩
  rw [boot_run_add f regs s _ m 1 (boot_run_idle f regs m s hs hidle), boot_run_succ,
    hstep f hf, ok_bind]
  simp [boot_run, pure_eq_ok, Uart.after, Uart.polled, Uart.received, Uart.sent, Nat.add_assoc]

theorem boot_run_key_leave (regs : Nat → Nat) (s : Boot) (m c e : Nat) (bytes : List Nat)
    (hs : s.phase = Phase.interactive) (hu : TxEventuallyFree s.uart)
    (hk : KeyArrives s.uart m c)
    (hsw : EmitsR (fun f => boot_main_switch f regs c s.echo_on) bytes
      (fun u => (Ctl.leave, e, u))) :
    ∃ p F, ∀ f, F ≤ f → boot_run f regs (m + 1) s =
      .ok { phase := Phase.halted, echo_on := e, daif := s.daif ||| 0xF,
            uart := s.uart.after p 1 (bytes ++ wire halt_text) } := by
  obtain ⟨hidle, h0, h1, hc⟩ := hk
  obtain ⟨k, F, hstep⟩ := boot_step_leave regs { s with uart := s.uart.polled m } c e bytes
    hs hu h0 (by simpa [Uart.polled, Nat.add_assoc] using h1) hc hsw
  refine ⟨m + 2 + k, F, fun f hf => ?_⟩
  rw [boot_run_add f regs s _ m 1 (boot_run_idle f regs m s hs hidle), boot_run_succ,
    hstep f hf, ok_bind]
  simp [boot_run, pure_eq_ok, Uart.after, Uart.polled, Uart.received, Uart.sent, Nat.add_assoc]

/-- C6, as the code has it: in the interactive loop of `boot_main`, for every
printable byte `c` (0x20 to 0x7E) other than the command characters `?`, `d`,
`e` and `r`, when `c` is received (the flag register shows the receive FIFO
not empty at the poll of `uart_getc_available` and at the poll of `uart_getc`,
and the data register delivers `c`) on a device whose transmitter always
eventually has space: with the echo flag on, the pass writes exactly the byte
`c` and the loop goes on with the flag unchanged; with the echo flag off, the
pass writes nothing and the loop goes on with the flag unchanged. -/
theorem boot_echo_printable (regs : Nat → Nat) (s : Boot) (c : Nat)
    (hprint : 0x20 ≤ c ∧ c ≤ 0x7E)
    (hcmd : c ≠ 63 ∧ c ≠ 100 ∧ c ≠ 101 ∧ c ≠ 114)
    (hs : s.phase = Phase.interactive) (hu : TxEventuallyFree s.uart)
    (h0 : s.uart.fr s.uart.frReads &&& UART_FR_RXFE = 0)
    (h1 : s.uart.fr (s.uart.frReads + 1) &&& UART_FR_RXFE = 0)
    (hc : s.uart.dr s.uart.drReads &&& 0xFF = c) :
    (s.echo_on ≠ 0 → ∃ k F, ∀ f, F ≤ f → boot_step f regs s =
      .ok { s with uart := { s.uart with frReads := s.uart.frReads + 2 + k,
                                         drReads := s.uart.drReads + 1,
                                         tx := s.uart.tx ++ [c] } }) ∧
    (s.echo_on = 0 → ∀ f, 1 ≤ f → boot_step f regs s =
      .ok { s with uart := { s.uart with frReads := s.uart.frReads + 2,
                                         drReads := s.uart.drReads + 1 } }) := by
  have hc5 : c ≠ 0x1B ∧ c ≠ 63 ∧ c ≠ 100 ∧ c ≠ 101 ∧ c ≠ 114 :=
    ⟨by omega, hcmd.1, hcmd.2.1, hcmd.2.2.1, hcmd.2.2.2⟩
  have hlf : c ≠ 10 := by omega
  constructor
  · intro he
    obtain ⟨k, F, hk⟩ := boot_step_command regs s c s.echo_on (wireByte c) hs hu h0 h1 hc
      (emitsR_switch_echo regs c s.echo_on he hc5)
    refine ⟨k, F, fun f hf => ?_⟩
    rw [hk f hf]
    simp [wireByte, hlf, Uart.received, Uart.sent]
  · intro he f hf
    have hpass : boot_main_pass f regs s.echo_on s.uart =
        .ok (Ctl.next, s.echo_on, s.uart.received 1) := by
      rw [boot_main_pass_recv f regs s.echo_on s.uart hf h0 h1, hc, he]
      exact boot_main_switch_mute f regs c _ hc5
    rw [boot_step_next f regs s _ _ hs hpass]
    simp [Uart.received]

/-- Witness of `boot_echo_printable`: the byte `a` received on a ready device
by the loop in its initial state. -/
theorem boot_echo_printable_witness :
    (boot_loop_entry 0 (Uart.ready [97])).echo_on ≠ 0 ∧
    ∃ k F, ∀ f, F ≤ f →
      boot_step f (fun _ => 0) (boot_loop_entry 0 (Uart.ready [97])) =
        .ok { boot_loop_entry 0 (Uart.ready [97]) with
              uart := { Uart.ready [97] with frReads := (Uart.ready [97]).frReads + 2 + k,
                                             drReads := (Uart.ready [97]).drReads + 1,
                                             tx := (Uart.ready [97]).tx ++ [97] } } :=
  ⟨by decide,
    (boot_echo_printable (fun _ => 0) (boot_loop_entry 0 (Uart.ready [97])) 97
      (by decide) (by decide) rfl (txfree_ready [97]) (by decide) (by decide)
      (by decide)).1 (by decide)⟩

set_option maxRecDepth 100000 in
/-- C6 as stated fails on the command characters, which are printable: with
the echo flag on, receiving `e` (0x65) writes the echo-state message instead
of the byte `e` and switches the flag off; with the echo flag off, receiving
`?` (0x3F) writes the help listing. -/
theorem boot_echo_printable_counterexample :
    ((0x20 ≤ 0x65 ∧ 0x65 ≤ 0x7E) ∧
      (boot_step 8 (fun _ => 0) (boot_loop_entry 0 (Uart.ready [0x65]))).toOption.map
          (fun s => (s.echo_on, s.uart.tx)) = some (0, wire echo_off_text) ∧
      wire echo_off_text ≠ [0x65]) ∧
    ((0x20 ≤ 0x3F ∧ 0x3F ≤ 0x7E) ∧
      (boot_step 8 (fun _ => 0)
          { boot_loop_entry 0 (Uart.ready [0x3F]) with echo_on := 0 }).toOption.map
          (fun s => (s.echo_on, s.uart.tx)) = some (0, wire help_text_off) ∧
      wire help_text_off ≠ []) := by
  decide

/-- C7: the interactive loop is entered in its initial state (echo on) on a
device whose transmitter always eventually has space, and the operator sends
`e`, `?`, ESC in that order, each key arriving after any number of idle polls
(`m1`, `m2`, `m3`): the only assumption on the receive side is made at the
polls the loop performs while it waits for and takes each key.  Then, for
every large enough fuel: after `m1 + 1` passes the loop is still running, the
echo flag is off and the new state `OFF` has been printed; after `m2 + 1` more
passes the help listing has been printed and the flag is still off; after
`m3 + 1` more passes the exit message, the completion messages and the halt
message have been printed, the loop has been left and the system is in the
halted state with interrupts masked, three bytes having been read from the
data register; and however many further steps are run, nothing changes: no
further read of the data register (or of the flag register) is ever
performed, whatever the device reports. -/
theorem boot_e_help_esc (regs : Nat → Nat) (daif : Nat) (u : Uart)
    (hu : TxEventuallyFree u) (m1 : Nat) (hk1 : KeyArrives u m1 101) :
    ∃ p1 F1,
      (∀ f, F1 ≤ f → boot_run f regs (m1 + 1) (boot_loop_entry daif u) =
        .ok { phase := Phase.interactive, echo_on := 0, daif := daif,
              uart := u.after p1 1 (wire echo_off_text) }) ∧
      ∀ m2, KeyArrives (u.after p1 1 (wire echo_off_text)) m2 63 →
        ∃ p2 F2,
          (∀ f, F2 ≤ f →
            boot_run f regs (m1 + 1 + (m2 + 1)) (boot_loop_entry daif u) =
              .ok { phase := Phase.interactive, echo_on := 0, daif := daif,
                    uart := (u.after p1 1 (wire echo_off_text)).after p2 1
                      (wire help_text_off) }) ∧
          ∀ m3, KeyArrives ((u.after p1 1 (wire echo_off_text)).after p2 1
              (wire help_text_off)) m3 0x1B →
            ∃ p3 F3 u3,
              u3 = ((u.after p1 1 (wire echo_off_text)).after p2 1
                (wire help_text_off)).after p3 1 (wire exit_text ++ wire halt_text) ∧
              u3.tx = u.tx ++ wire echo_off_text ++ wire help_text_off ++
                (wire exit_text ++ wire halt_text) ∧
              u3.drReads = u.drReads + 3 ∧
              ∀ f, F3 ≤ f → ∀ n,
                boot_run f regs (m1 + 1 + (m2 + 1) + (m3 + 1) + n) (boot_loop_entry daif u) =
                  .ok { phase := Phase.halted, echo_on := 0, daif := daif ||| 0xF,
                        uart := u3 } := by
  -- first key: `e`
  obtain ⟨p1, F1, h1⟩ := boot_run_key regs (boot_loop_entry daif u) m1 101 0
    (wire echo_off_text) rfl hu hk1 (emitsR_switch_e regs 1 (by decide))
  refine ⟨p1, F1, h1, fun m2 hk2 => ?_⟩
  -- second key: `?`
  obtain ⟨p2, F2, h2⟩ := boot_run_key regs
    { phase := Phase.interactive, echo_on := 0, daif := daif,
      uart := u.after p1 1 (wire echo_off_text) } m2 63 0
    (wire help_text_off) rfl hu hk2 (emitsR_switch_help_off regs)
  refine ⟨p2, max F1 F2, fun f hf => ?_, fun m3 hk3 => ?_⟩
  · have hF1 : F1 ≤ f := le_trans (le_max_left _ _) hf
    have hF2 : F2 ≤ f := le_trans (le_max_right _ _) hf
    rw [boot_run_add f regs _ _ (m1 + 1) (m2 + 1) (h1 f hF1)]
    exact h2 f hF2
  -- third key: ESC
  obtain ⟨p3, F3, h3⟩ := boot_run_key_leave regs
    { phase := Phase.interactive, echo_on := 0, daif := daif,
      uart := (u.after p1 1 (wire echo_off_text)).after p2 1 (wire help_text_off) } m3 0x1B 0
    (wire exit_text) rfl hu hk3 (emitsR_switch_esc regs 0)
  refine ⟨p3, max (max F1 F2) F3, _, rfl, ?_, ?_, fun f hf n => ?_⟩
  · simp [Uart.after]
  · simp [Uart.after]
  · have hF1 : F1 ≤ f := le_trans (le_trans (le_max_left _ _) (le_max_left _ _)) hf
    have hF2 : F2 ≤ f := le_trans (le_trans (le_max_right _ _) (le_max_left _ _)) hf
    have hF3 : F3 ≤ f := le_trans (le_max_right _ _) hf
    have r2 : boot_run f regs (m1 + 1 + (m2 + 1)) (boot_loop_entry daif u) =
        .ok { phase := Phase.interactive, echo_on := 0, daif := daif,
              uart := (u.after p1 1 (wire echo_off_text)).after p2 1
                (wire help_text_off) } := by
      rw [boot_run_add f regs _ _ (m1 + 1) (m2 + 1) (h1 f hF1)]
      exact h2 f hF2
    have r3 : boot_run f regs (m1 + 1 + (m2 + 1) + (m3 + 1)) (boot_loop_entry daif u) =
        .ok { phase := Phase.halted, echo_on := 0, daif := daif ||| 0xF,
              uart := ((u.after p1 1 (wire echo_off_text)).after p2 1
                (wire help_text_off)).after p3 1 (wire exit_text ++ wire halt_text) } := by
      rw [boot_run_add f regs _ _ (m1 + 1 + (m2 + 1)) (m3 + 1) r2]
      exact h3 f hF3
    rw [boot_run_add f regs _ _ _ n r3]
    exact boot_run_halted f regs _ rfl n

/-- Witness of `boot_e_help_esc`: a device delivering `e`, `?`, ESC with no
idle poll in between, whose receive FIFO was reported empty at reads of the
flag register that precede the loop; the three nested hypotheses are
discharged in turn. -/
theorem boot_e_help_esc_witness :
    ∃ (F3 : Nat) (u3 : Uart),
      u3.tx = (Uart.resumed [101, 63, 27]).tx ++ wire echo_off_text ++ wire help_text_off ++
        (wire exit_text ++ wire halt_text) ∧
      u3.drReads = (Uart.resumed [101, 63, 27]).drReads + 3 ∧
      ∀ f, F3 ≤ f → ∀ n,
        boot_run f (fun _ => 0) (0 + 1 + (0 + 1) + (0 + 1) + n)
            (boot_loop_entry 0 (Uart.resumed [101, 63, 27])) =
          .ok { phase := Phase.halted, echo_on := 0, daif := 0 ||| 0xF, uart := u3 } := by
  obtain ⟨p1, F1, _, rest1⟩ := boot_e_help_esc (fun _ => 0) 0 (Uart.resumed [101, 63, 27])
    (txfree_resumed _) 0 (by simp [KeyArrives, Uart.resumed]; decide)
  obtain ⟨p2, F2, _, rest2⟩ := rest1 0 (by
    have a0 : ¬ (4 + p1 + 0 < 4) := by omega
    have a1 : ¬ (4 + p1 + 0 + 1 < 4) := by omega
    refine ⟨fun j hj => absurd hj (Nat.not_lt_zero j), ?_, ?_, ?_⟩
    · simp only [Uart.resumed, Uart.after, if_neg a0]; decide
    · simp only [Uart.resumed, Uart.after, if_neg a1]; decide
    · simp only [Uart.resumed, Uart.after]; decide)
  obtain ⟨p3, F3, u3, _, htx, hdr, hrun⟩ := rest2 0 (by
    have a0 : ¬ (4 + p1 + p2 + 0 < 4) := by omega
    have a1 : ¬ (4 + p1 + p2 + 0 + 1 < 4) := by omega
    refine ⟨fun j hj => absurd hj (Nat.not_lt_zero j), ?_, ?_, ?_⟩
    · simp only [Uart.resumed, Uart.after, if_neg a0]; decide
    · simp only [Uart.resumed, Uart.after, if_neg a1]; decide
    · simp only [Uart.resumed, Uart.after]; decide)
  exact ⟨F3, u3, htx, hdr, hrun⟩

/-- C8: in the interactive loop of `boot_main`, if the next `n` reads of the
flag register report the receive FIFO empty, then `n` passes of the loop
return (whatever the fuel), the loop is still running, the echo flag is
unchanged, nothing has been written to the data register and nothing read from
it: the only effect is `n` reads of the flag register. -/
theorem boot_idle (fuel : Nat) (regs : Nat → Nat) (e daif : Nat) (u : Uart) (n : Nat)
    (h : ∀ k, k < n → u.fr (u.frReads + k) &&& UART_FR_RXFE ≠ 0) :
    boot_run fuel regs n
        { phase := Phase.interactive, echo_on := e, daif := daif, uart := u } =
      .ok { phase := Phase.interactive, echo_on := e, daif := daif,
            uart := { u with frReads := u.frReads + n } } := by
  induction n generalizing u with
  | zero => rfl
  | succ n ih =>
    have h0 : u.fr u.frReads &&& UART_FR_RXFE ≠ 0 := by simpa using h 0 (by omega)
    have hstep := boot_step_next fuel regs
      { phase := Phase.interactive, echo_on := e, daif := daif, uart := u } e (u.polled 1) rfl
      (boot_main_pass_idle fuel regs e u h0)
    rw [boot_run_succ, hstep, ok_bind]
    have := ih (u.polled 1) (fun k hk => by
      have := h (k + 1) (by omega)
      have e1 : u.frReads + 1 + k = u.frReads + (k + 1) := by omega
      simpa [Uart.polled, e1] using this)
    rw [show ({ phase := Phase.interactive, echo_on := e, daif := daif, uart := u } : Boot) =
      { phase := Phase.interactive, echo_on := e, daif := daif, uart := u } from rfl]
    simp only [Uart.polled] at this ⊢
    rw [this]
    simp [Nat.add_assoc, Nat.add_comm 1 n]

/-- Witness of `boot_idle`: five passes on a device whose receive FIFO always
reports empty. -/
theorem boot_idle_witness :
    boot_run 0 (fun _ => 0) 5
        { phase := Phase.interactive, echo_on := 1, daif := 0, uart := Uart.silent } =
      .ok { phase := Phase.interactive, echo_on := 1, daif := 0,
            uart := { Uart.silent with frReads := Uart.silent.frReads + 5 } } :=
  boot_idle 0 (fun _ => 0) 1 0 Uart.silent 5
    (fun _ _ => by simp [Uart.silent, UART_FR_RXFE])

/-- C9: for the clock 48,000,000 Hz and the baud rate 115,200 the macro
`BAUD_DIVISOR`, the integer part of `clock / (16 * baud)`, is 26, and the
remainder of that division scaled by 64 and rounded to nearest is 3; these are
the values `uart_init` writes to the integer and to the fractional
baud-divisor register (one write each). -/
theorem baud_divisors :
    UART_CLOCK = 48000000 ∧ BAUD_RATE = 115200 ∧
    BAUD_DIVISOR = 26 ∧
    UART_CLOCK % (16 * BAUD_RATE) = 76800 ∧
    spec_fractional_divisor UART_CLOCK BAUD_RATE = 3 ∧
    ∀ u : Uart,
      (uart_init u).writesTo UART0_IBRD = u.writesTo UART0_IBRD ++ [BAUD_DIVISOR] ∧
      (uart_init u).writesTo UART0_FBRD =
        u.writesTo UART0_FBRD ++ [spec_fractional_divisor UART_CLOCK BAUD_RATE] := by
  refine ⟨rfl, rfl, by decide, by decide, by decide, fun u => ?_⟩
  have hb : BAUD_DIVISOR = 26 := by decide
  have hf : spec_fractional_divisor UART_CLOCK BAUD_RATE = 3 := by decide
  rw [hb, hf]
  constructor <;>
    simp [uart_init, Uart.writesTo, List.filter_append, UART0_IBRD, UART0_FBRD, UART0_CR,
      UART0_LCRH, UART0_IMSC]

end Cboot
